import Mathlib

/-!
Verification of the decompiled-bundle patch engine of `patch.py`
(pairip-protection-remover).  Text lines are modelled as `List Char`,
files as `List (List Char)`, and every rewrite of `patch_files` /
`process_apk` is embedded as an executable Lean function that mirrors
the Python control flow line by line.
-/

namespace Pairip

/-- Python whitespace characters, as removed by `str.strip()` and matched
by the regex class `\s` (ASCII range). -/
def isPyWs (c : Char) : Bool :=
  c = ' ' || c = '\t' || c = '\n' || c = '\r' || c = '\x0b' || c = '\x0c'

/-- Python `str.strip()`: drop leading and trailing whitespace. -/
def pyStrip (l : List Char) : List Char :=
  ((l.dropWhile isPyWs).reverse.dropWhile isPyWs).reverse

/-- Python substring test (the `in` operator on `str`). -/
def isSub (pat : List Char) : List Char → Bool
  | [] => pat.isEmpty
  | c :: cs => pat.isPrefixOf (c :: cs) || isSub pat cs

/-- Python `s.split("/")`. -/
def splitSlash : List Char → List (List Char)
  | [] => [[]]
  | c :: cs =>
    match splitSlash cs with
    | [] => [[]]
    | h :: t => if c = '/' then [] :: h :: t else (c :: h) :: t

/-! ## The `VMRunner.smali` static-initializer rewriter (patch.py 320-333, 383-412) -/

def methodTok : List Char := ".method".data

def endMethodTok : List Char := ".end method".data

def clinitTok : List Char := "<clinit>()V".data

/-- The fixed replacement `<clinit>` block (`new_clinit_block`, patch.py 320-333),
with the newline each entry receives when written back. -/
def newClinitNL : List (List Char) :=
  [".method static constructor <clinit>()V\n".data,
   "    .registers 1\n".data,
   "\n".data,
   "    .line 30\n".data,
   "    const-string v0, \"pairipcorex\"\n".data,
   "    invoke-static {v0}, Ljava/lang/System;->loadLibrary(Ljava/lang/String;)V\n".data,
   "\n".data,
   "    const-string v0, \"pairipcore\"\n".data,
   "    invoke-static {v0}, Ljava/lang/System;->loadLibrary(Ljava/lang/String;)V\n".data,
   "\n".data,
   "    return-void\n".data,
   ".end method\n".data]

/-- Line test for the `<clinit>` target (patch.py 394):
`line.strip().startswith('.method') and '<clinit>()V' in line`. -/
def isClinitDecl (l : List Char) : Bool :=
  methodTok.isPrefixOf (pyStrip l) && isSub clinitTok l

/-- The line content emitted by the VMRunner loop (patch.py 389-405).
`inside` is the `inside_clinit` flag. -/
def vmOut : Bool → List (List Char) → List (List Char)
  | _, [] => []
  | inside, l :: ls =>
    if !inside && isClinitDecl l then newClinitNL ++ vmOut true ls
    else if inside then
      vmOut (if pyStrip l = endMethodTok then false else true) ls
    else l :: vmOut false ls

/-- The `method_start_found` flag computed by the same loop (patch.py 391-396). -/
def vmFound : Bool → List (List Char) → Bool
  | _, [] => false
  | inside, l :: ls =>
    if !inside && isClinitDecl l then true
    else if inside then
      vmFound (if pyStrip l = endMethodTok then false else true) ls
    else vmFound false ls

/-- Net effect on the file: the new lines are written back only when
`method_start_found` (patch.py 407-410); otherwise the file is untouched. -/
def vmFile (lines : List (List Char)) : List (List Char) :=
  if vmFound false lines then vmOut false lines else lines

/-! ## The `SignatureCheck.smali` / `LicenseClient.smali` rewriter (patch.py 335-356, 414-490) -/

/-- The stop test of the skip loops (patch.py 443, 452, 461, 470):
`lines[i].strip().startswith('.end method')`. -/
def isEndMethod (l : List Char) : Bool := endMethodTok.isPrefixOf (pyStrip l)

/-- Index at which a skip loop stops, counted from its starting line:
`while i < len(lines) and not lines[i].strip().startswith('.end method')`. -/
def endScan : List (List Char) → Nat
  | [] => 0
  | l :: ls => if isEndMethod l then 0 else endScan ls + 1

/-- Drop lines through the first `'.end method'`-prefixed line inclusive
(a skip loop followed by `i += 1`). -/
def dropToEnd : List (List Char) → List (List Char)
  | [] => []
  | l :: ls => if isEndMethod l then ls else dropToEnd ls

def tokVerify : List Char := "verifyIntegrity(Landroid/content/Context;)V".data

def tokVerifySig : List Char := "verifySignatureMatches(Ljava/lang/String;)Z".data

def tokInitLic : List Char := "initializeLicenseCheck()V".data

def tokConnLic : List Char := "connectToLicensingService()V".data

/-- Decl test used by all four handlers (patch.py 435, 448, 457, 466):
`stripped.startswith('.method') and TOKEN in stripped`. -/
def isSigDecl (tok st : List Char) : Bool :=
  methodTok.isPrefixOf st && isSub tok st

/-- The three lines appended after the kept `verifyIntegrity` declaration
(patch.py 440-442). -/
def verifyTailNL : List (List Char) :=
  ["    .registers 1\n".data, "    return-void\n".data, ".end method\n".data]

/-- `new_verify_signature_block` (patch.py 335-342), newline-terminated. -/
def verifySigNL : List (List Char) :=
  [".method static verifySignatureMatches(Ljava/lang/String;)Z\n".data,
   "    .registers 1\n".data,
   "\n".data,
   "    const/4 p0, 0x1\n".data,
   "    return p0\n".data,
   ".end method\n".data]

/-- `new_initialize_license_block` (patch.py 344-349), newline-terminated. -/
def initLicNL : List (List Char) :=
  [".method public initializeLicenseCheck()V\n".data,
   "    .registers 1\n".data,
   "    return-void\n".data,
   ".end method\n".data]

/-- `new_connect_license_block` (patch.py 351-356), newline-terminated. -/
def connLicNL : List (List Char) :=
  [".method private connectToLicensingService()V\n".data,
   "    .registers 1\n".data,
   "    return-void\n".data,
   ".end method\n".data]

/-- The `inside_*` / `*_method_found` flags of the signature-file loop
(patch.py 422-429): each pair is set together and never reset, so one
boolean per handler suffices. -/
structure SigFlags where
  verify : Bool
  verifySig : Bool
  initLic : Bool
  connLic : Bool
deriving DecidableEq

def sigFlags0 : SigFlags := ⟨false, false, false, false⟩

def sigAny (fl : SigFlags) : Bool := fl.verify || fl.verifySig || fl.initLic || fl.connLic

/-- The while loop of patch.py 431-476, fuelled by the line count.  Each
handler fires at most once (guarded by its flag), emits its replacement
lines and skips the original block through its `.end method` line. -/
def sigLoopF : Nat → SigFlags → List (List Char) → List (List Char) × SigFlags
  | 0, fl, _ => ([], fl)
  | _ + 1, fl, [] => ([], fl)
  | f + 1, fl, l :: ls =>
    let st := pyStrip l
    if !fl.verify && isSigDecl tokVerify st then
      let r := sigLoopF f { fl with verify := true } (dropToEnd ls)
      (l :: (verifyTailNL ++ r.1), r.2)
    else if !fl.verifySig && isSigDecl tokVerifySig st then
      let r := sigLoopF f { fl with verifySig := true } (dropToEnd (l :: ls))
      (verifySigNL ++ r.1, r.2)
    else if !fl.initLic && isSigDecl tokInitLic st then
      let r := sigLoopF f { fl with initLic := true } (dropToEnd (l :: ls))
      (initLicNL ++ r.1, r.2)
    else if !fl.connLic && isSigDecl tokConnLic st then
      let r := sigLoopF f { fl with connLic := true } (dropToEnd (l :: ls))
      (connLicNL ++ r.1, r.2)
    else
      let r := sigLoopF f fl ls
      (l :: r.1, r.2)

def sigLoop (fl : SigFlags) (lines : List (List Char)) : List (List Char) × SigFlags :=
  sigLoopF lines.length fl lines

/-- Net effect on the file: written back only when some handler fired
(patch.py 478-480). -/
def sigFile (lines : List (List Char)) : List (List Char) :=
  if sigAny (sigLoop sigFlags0 lines).2 then (sigLoop sigFlags0 lines).1 else lines

/-! ## Native-library architecture reconciliation (patch.py 303-317, 508-548) -/

def soFiles : List (List Char) := ["libpairipcorex.so".data, "libFirebaseCppApp.so".data]

def supportedArchs : List (List Char) :=
  ["armeabi-v7a".data, "arm64-v8a".data, "x86".data, "x86_64".data]

def libPre : List Char := "lib/".data

def pairipLib : List Char := "libpairipcore.so".data

/-- patch.py 308-311: an archive entry contributes `file.split("/")[1]` when
`file.startswith("lib/") and file.endswith("libpairipcore.so")`. -/
def archOf (e : List Char) : Option (List Char) :=
  if libPre.isPrefixOf e && pairipLib.isSuffixOf e then (splitSlash e).get? 1 else none

/-- The `architectures` list (patch.py 305-317).  `none` models the zip scan
raising before any entry is appended (the `except` path at 316-317), in
which case `architectures` stays empty. -/
def declaredArchs : Option (List (List Char)) → List (List Char)
  | none => []
  | some es => es.filterMap archOf

/-- A directory of the decompiled `root/lib` tree: its architecture name
(the basename) and the names of the files it holds. -/
structure LibDir where
  arch : List Char
  files : List (List Char)
deriving DecidableEq

inductive CopyEvent where
  | copied (arch file : List Char)
  | skipped (arch : List Char)
deriving DecidableEq

/-- One step of the copy walk (patch.py 527-543): only a directory holding
`libpairipcore.so` is considered; it receives the supplemental libraries
when its architecture is declared and supported, and is otherwise skipped
with a warning. -/
def copyStep (archs : List (List Char)) (d : LibDir) : LibDir × List CopyEvent :=
  if d.files.contains pairipLib then
    if archs.contains d.arch && supportedArchs.contains d.arch then
      ({ d with files := d.files ++ soFiles.filter (fun f => !d.files.contains f) },
       soFiles.map (CopyEvent.copied d.arch))
    else (d, [CopyEvent.skipped d.arch])
  else (d, [])

def copyPhase (archs : List (List Char)) (ds : List LibDir) :
    List LibDir × List CopyEvent :=
  (ds.map (fun d => (copyStep archs d).1),
   (ds.map (fun d => (copyStep archs d).2)).flatten)

/-- `lib_dirs_found` (patch.py 525, 532, 545). -/
def libDirsFound (archs : List (List Char)) (ds : List LibDir) : Nat :=
  ds.countP (fun d =>
    d.files.contains pairipLib && archs.contains d.arch && supportedArchs.contains d.arch)

/-! ## The `file_paths.xml` rewriter (patch.py 550-576)

The pattern
`<external-path\s+name="[^"]*"\s+path="Android/data/[^"]*/files/Pictures"\s*/>`
(IGNORECASE) is embedded as a deterministic matcher: each `[^"]*` must stop
at the first quote after it (the following literal ends in `"`), and the
final `\s*` must stop at the first non-whitespace (the following literal
starts with `/`, which is not whitespace), so the backtracking regex admits
exactly one candidate extent per start position. -/

def lowerC (c : Char) : Char :=
  if 'A' ≤ c ∧ c ≤ 'Z' then Char.ofNat (c.toNat + 32) else c

/-- Case-insensitive character comparison (`re.IGNORECASE`). -/
def ciEq (a b : Char) : Bool := lowerC a = lowerC b

/-- Consume a case-insensitive literal and return the remaining input. -/
def ciConsume : List Char → List Char → Option (List Char)
  | [], t => some t
  | _ :: _, [] => none
  | p :: ps, c :: cs => if ciEq p c then ciConsume ps cs else none

/-- The literal mismatches already inside the given prefix of the input. -/
def ciStops : List Char → List Char → Bool
  | [], _ => false
  | _ :: _, [] => false
  | p :: ps, c :: cs => if ciEq p c then ciStops ps cs else true

def ciPrefB (p t : List Char) : Bool := (ciConsume p t).isSome

/-- Case-insensitive suffix test. -/
def ciSuffB (p t : List Char) : Bool := ciPrefB p.reverse t.reverse

/-- Drop a maximal run of `\s`. -/
def wsDrop : List Char → List Char
  | [] => []
  | c :: cs => if isPyWs c then wsDrop cs else c :: cs

/-- `\s+` followed by nothing else: at least one whitespace, then the
maximal run is consumed. -/
def wsPlus : List Char → Option (List Char)
  | [] => none
  | c :: cs => if isPyWs c then some (wsDrop cs) else none

/-- `[^"]*"`: everything up to and including the first quote. -/
def scanQ : List Char → Option (List Char)
  | [] => none
  | c :: cs => if c = '"' then some cs else scanQ cs

/-- `[^"]*"` keeping the consumed quote-free part. -/
def scanQPre : List Char → Option (List Char × List Char)
  | [] => none
  | c :: cs =>
    if c = '"' then some ([], cs)
    else
      match scanQPre cs with
      | none => none
      | some (a, b) => some (c :: a, b)

def extLit : List Char := "<external-path".data

def nameLit : List Char := "name=\"".data

def pathLit : List Char := "path=\"Android/data/".data

def picLit : List Char := "/files/Pictures".data

def closeLit : List Char := "/>".data

/-- The fixed replacement string (patch.py 557). -/
def fpRepl : List Char :=
  "<external-files-path name=\"my_images\" path=\"Pictures/\" />".data

def stage8 (t : List Char) : Option (List Char) := ciConsume closeLit (wsDrop t)

def stage7 (t : List Char) : Option (List Char) :=
  (scanQPre t).bind fun pr => if ciSuffB picLit pr.1 then stage8 pr.2 else none

def stage6 (t : List Char) : Option (List Char) := (ciConsume pathLit t).bind stage7

def stage5 (t : List Char) : Option (List Char) := (wsPlus t).bind stage6

def stage4 (t : List Char) : Option (List Char) := (scanQ t).bind stage5

def stage3 (t : List Char) : Option (List Char) := (ciConsume nameLit t).bind stage4

def stage2 (t : List Char) : Option (List Char) := (wsPlus t).bind stage3

/-- Match the whole `<external-path …/>` pattern at the head of the input,
returning the input left after the match. -/
def pmatch (t : List Char) : Option (List Char) := (ciConsume extLit t).bind stage2

/-- `pattern.sub(replacement, content)`: leftmost, non-overlapping,
replace-all; fuelled by the content length. -/
def psubF : Nat → List Char → List Char
  | 0, _ => []
  | _ + 1, [] => []
  | f + 1, c :: cs =>
    match pmatch (c :: cs) with
    | some rest => fpRepl ++ psubF f rest
    | none => c :: psubF f cs

def psub (t : List Char) : List Char := psubF t.length t

/-- `pattern.search(content)` (patch.py 566). -/
def psearch : List Char → Bool
  | [] => false
  | c :: cs => (pmatch (c :: cs)).isSome || psearch cs

/-- Net effect on one `file_paths.xml` (patch.py 563-570): rewritten only
when the pattern occurs. -/
def fpFile (c : List Char) : List Char := if psearch c then psub c else c

def extTail : List Char := "external-path".data

def fpTail : List Char :=
  "external-files-path name=\"my_images\" path=\"Pictures/\" />".data

/-- The part of the replacement before its first quote. -/
def fpPre : List Char := "<external-files-path name=".data

/-- The part of the replacement after its first quote. -/
def fpRest : List Char := "my_images\" path=\"Pictures/\" />".data

/-- No suffix of the text matches the external-path pattern. -/
def SafeP (y : List Char) : Prop := ∀ s : List Char, s <:+ y → pmatch s = none

/-! ## The manifest entry pruner (process_apk, patch.py 762-767)

`<activity[^>]+com\.pairip\.licensecheck\.LicenseActivity[^<]+/>` and the
analogous `<provider…>` pattern, with `re.DOTALL`.  Backtracking order:
`[^>]+` greedy (longest first), then `[^<]+` greedy. -/

def kindAct : List Char := "<activity".data

def tokAct : List Char := "com.pairip.licensecheck.LicenseActivity".data

def kindProv : List Char := "<provider".data

def tokProv : List Char := "com.pairip.licensecheck.LicenseContentProvider".data

/-- Length of the maximal `>`-free run at the head of the input. -/
def gtFreeLen : List Char → Nat
  | [] => 0
  | c :: cs => if c = '>' then 0 else gtFreeLen cs + 1

/-- Length of the maximal `<`-free run at the head of the input. -/
def ltFreeLen : List Char → Nat
  | [] => 0
  | c :: cs => if c = '<' then 0 else ltFreeLen cs + 1

/-- Greedy search for the `/>` closing the `[^<]+/>` tail: try lengths
`p0, p0 - 1, …, 1` for the `[^<]+` part. -/
def tryEnd (t : List Char) : Nat → Option Nat
  | 0 => none
  | p + 1 =>
    if t.get? (p + 1) = some '/' ∧ t.get? (p + 2) = some '>' then some (p + 1)
    else tryEnd t p

/-- Greedy search for the `[^>]+` length `k` (descending) such that the
class-name token matches at offset `k` and a closing `/>` is found. -/
def tryTok (t tok : List Char) : Nat → Option (List Char)
  | 0 => none
  | k + 1 =>
    if tok.isPrefixOf (t.drop (k + 1)) then
      match tryEnd (t.drop (k + 1 + tok.length)) (ltFreeLen (t.drop (k + 1 + tok.length))) with
      | some p => some ((t.drop (k + 1 + tok.length)).drop (p + 2))
      | none => tryTok t tok k
    else tryTok t tok k

/-- Match one element pattern at the head of the input, returning the input
left after the matched span. -/
def elemMatch (kind tok t : List Char) : Option (List Char) :=
  if kind.isPrefixOf t then
    tryTok (t.drop kind.length) tok (gtFreeLen (t.drop kind.length))
  else none

/-- `re.sub(pattern, '', content)` for one element pattern. -/
def elemSubF : Nat → List Char → List Char → List Char → List Char
  | 0, _, _, _ => []
  | _ + 1, _, _, [] => []
  | f + 1, kind, tok, c :: cs =>
    match elemMatch kind tok (c :: cs) with
    | some rest => elemSubF f kind tok rest
    | none => c :: elemSubF f kind tok cs

def elemSub (kind tok t : List Char) : List Char := elemSubF t.length kind tok t

/-- Removal of the two license-check element kinds, in source order
(patch.py 762-767). -/
def pruneEntries (content : List Char) : List Char :=
  elemSub kindProv tokProv (elemSub kindAct tokAct content)

/-- A self-closing manifest element of the given kind. -/
def elemE (kind attrs : List Char) : List Char := kind ++ attrs ++ "/>".data

/-! ## The `patch_files` run (patch.py 293-578) -/

/-- The parts of the on-disk state that `patch_files` reads or writes:
the `VMRunner.smali` files and signature/license smali files found under
`com/pairip`, the working-directory file names, the decompiled `root/lib`
directories, the `res/xml/file_paths.xml` contents, and the zip listing of
`merged_app.apk` (`none` when the scan raises). -/
structure FS where
  vmFiles : List (List (List Char))
  sigFiles : List (List (List Char))
  cwdFiles : List (List Char)
  libDirs : List LibDir
  xmlFiles : List (List Char)
  apkEntries : Option (List (List Char))
deriving DecidableEq

/-- Per-category success signals of one run. -/
structure Categories where
  methodRewrite : Bool
  libraryCopy : Bool
  resourceRewrite : Bool
deriving DecidableEq

inductive PatchResult where
  | aborted (fs : FS)
  | ok (fs : FS) (agg : Bool) (cat : Categories)
deriving DecidableEq

/-- patch.py 519: both supplemental libraries present in the working
directory. -/
def soPresent (fs : FS) : Bool := soFiles.all (fun f => fs.cwdFiles.contains f)

def sigOr (a b : SigFlags) : SigFlags :=
  ⟨a.verify || b.verify, a.verifySig || b.verifySig,
   a.initLic || b.initLic, a.connLic || b.connLic⟩

/-- `patch_files` (patch.py 293-578): smali patching first (358-506), then
the fatal supplemental-library check (519-522), then the architecture-
reconciled copies (524-548), then the `file_paths.xml` rewrite (550-576);
the returned aggregate is the disjunction at line 578. -/
def patchFiles (fs : FS) : PatchResult :=
  let archs := declaredArchs fs.apkEntries
  let vmr := fs.vmFiles.any (fun f => vmFound false f)
  let sfl := (fs.sigFiles.map (fun f => (sigLoop sigFlags0 f).2)).foldr sigOr sigFlags0
  let fs1 : FS :=
    { fs with vmFiles := fs.vmFiles.map vmFile, sigFiles := fs.sigFiles.map sigFile }
  if soPresent fs1 then
    let fp := fs1.xmlFiles.any psearch
    let fs2 : FS :=
      { fs1 with
        libDirs := (copyPhase archs fs1.libDirs).1,
        xmlFiles := fs1.xmlFiles.map fpFile }
    PatchResult.ok fs2
      (vmr || sfl.verify || sfl.verifySig || sfl.initLic || sfl.connLic || fp)
      ⟨vmr || sfl.verify || sfl.verifySig || sfl.initLic || sfl.connLic,
       decide (0 < libDirsFound archs fs1.libDirs), fp⟩
  else PatchResult.aborted fs1

def PatchResult.isAborted : PatchResult → Bool
  | .aborted _ => true
  | .ok _ _ _ => false

/-- C1 counterexample input: one `VMRunner.smali` holding a `<clinit>`
block, both supplemental libraries missing from the working directory. -/
def fsMissing : FS :=
  ⟨[[".method static constructor <clinit>()V\n".data, ".end method\n".data]],
   [], [], [], [], none⟩

/-- C2 counterexample input: libraries present, one supported declared
architecture directory, nothing else to patch. -/
def fsLibOnly : FS :=
  ⟨[], [], soFiles, [⟨"arm64-v8a".data, [pairipLib]⟩], [],
   some ["lib/arm64-v8a/libpairipcore.so".data]⟩

/-- Gap condition for the text after an element: either the document ends
there, or everything up to the next `<` is free of `>` and `<`. -/
def GapOk (rest : List Char) : Prop :=
  rest = [] ∨ ∃ g r2, rest = g ++ '<' :: r2 ∧ ∀ c ∈ g, ¬c = '>' ∧ ¬c = '<'

/-! ## Lemmas: the VMRunner rewriter -/

lemma vmOut_pre (p t : List (List Char)) (hp : ∀ l ∈ p, isClinitDecl l = false) :
    vmOut false (p ++ t) = p ++ vmOut false t := by
  induction p with
  | nil => rfl
  | cons l ls ih =>
    have h := hp l (List.mem_cons_self l ls)
    simp [vmOut, h, ih (fun x hx => hp x (List.mem_cons_of_mem _ hx))]

lemma vmOut_id (s : List (List Char)) (hs : ∀ l ∈ s, isClinitDecl l = false) :
    vmOut false s = s := by
  induction s with
  | nil => rfl
  | cons l ls ih =>
    have h := hs l (List.mem_cons_self l ls)
    simp [vmOut, h, ih (fun x hx => hs x (List.mem_cons_of_mem _ hx))]

lemma vmOut_body (b t : List (List Char)) (endL : List Char)
    (hb : ∀ l ∈ b, pyStrip l ≠ endMethodTok) (he : pyStrip endL = endMethodTok) :
    vmOut true (b ++ endL :: t) = vmOut false t := by
  induction b with
  | nil => simp [vmOut, he]
  | cons l ls ih =>
    have h := hb l (List.mem_cons_self l ls)
    simp [vmOut, h, ih (fun x hx => hb x (List.mem_cons_of_mem _ hx))]

lemma vmFound_pre (p t : List (List Char)) (hp : ∀ l ∈ p, isClinitDecl l = false) :
    vmFound false (p ++ t) = vmFound false t := by
  induction p with
  | nil => rfl
  | cons l ls ih =>
    have h := hp l (List.mem_cons_self l ls)
    simp [vmFound, h, ih (fun x hx => hp x (List.mem_cons_of_mem _ hx))]

/-! ## Claim C4: full replacement of the `<clinit>` block -/

/-- C4.  For a disassembly file holding a `.method … <clinit>()V … .end method`
block with arbitrary body, the rewrite writes back the file with the block
replaced by the fixed loader stub, every line outside the original block
unchanged and in order, and the output holds exactly one `<clinit>` block. -/
theorem clinit_full_replacement
    (p b suf : List (List Char)) (decl endL : List Char)
    (hp : ∀ l ∈ p, isClinitDecl l = false)
    (hd : isClinitDecl decl = true)
    (hb : ∀ l ∈ b, pyStrip l ≠ endMethodTok)
    (he : pyStrip endL = endMethodTok)
    (hs : ∀ l ∈ suf, isClinitDecl l = false) :
    vmFile (p ++ decl :: (b ++ endL :: suf)) = p ++ (newClinitNL ++ suf) ∧
    (p ++ (newClinitNL ++ suf)).countP isClinitDecl = 1 := by
  have hfound : vmFound false (p ++ decl :: (b ++ endL :: suf)) = true := by
    rw [vmFound_pre p _ hp]; simp [vmFound, hd]
  have hout : vmOut false (p ++ decl :: (b ++ endL :: suf)) = p ++ (newClinitNL ++ suf) := by
    rw [vmOut_pre p _ hp]
    simp only [vmOut, hd, Bool.not_false, Bool.true_and, if_true]
    rw [vmOut_body b suf endL hb he, vmOut_id suf hs]
  refine ⟨by simp [vmFile, hfound, hout], ?_⟩
  have h1 : newClinitNL.countP isClinitDecl = 1 := by decide
  have h0 : ∀ (s : List (List Char)), (∀ l ∈ s, isClinitDecl l = false) →
      s.countP isClinitDecl = 0 := by
    intro s h
    exact List.countP_eq_zero.2 (fun a ha => by simp [h a ha])
  rw [List.countP_append, List.countP_append, h1, h0 p hp, h0 suf hs]

theorem clinit_full_replacement_witness :
    vmFile ([".class public Lcom/pairip/VMRunner;\n".data] ++
        ".method static constructor <clinit>()V\n".data ::
        (["    invoke-static {}, Lcom/x;->y()V\n".data] ++
          ".end method\n".data :: [".method public run()V\n".data])) =
      [".class public Lcom/pairip/VMRunner;\n".data] ++
        (newClinitNL ++ [".method public run()V\n".data]) ∧
    ([".class public Lcom/pairip/VMRunner;\n".data] ++
        (newClinitNL ++ [".method public run()V\n".data])).countP isClinitDecl = 1 :=
  clinit_full_replacement
    [".class public Lcom/pairip/VMRunner;\n".data]
    ["    invoke-static {}, Lcom/x;->y()V\n".data]
    [".method public run()V\n".data]
    (".method static constructor <clinit>()V\n".data)
    (".end method\n".data)
    (by decide) (by decide) (by decide) (by decide) (by decide)

/-! ## Claim C9: idempotence of the `<clinit>` replacement -/

lemma vmOut_newBlock (t : List (List Char)) :
    vmOut false (newClinitNL ++ t) = newClinitNL ++ vmOut false t := by
  have h1 : isClinitDecl (".method static constructor <clinit>()V\n".data) = true := by decide
  have h2 : pyStrip ("    .registers 1\n".data) ≠ endMethodTok := by decide
  have h3 : pyStrip ("\n".data) ≠ endMethodTok := by decide
  have h4 : pyStrip ("    .line 30\n".data) ≠ endMethodTok := by decide
  have h5 : pyStrip ("    const-string v0, \"pairipcorex\"\n".data) ≠ endMethodTok := by
    decide
  have h6 : pyStrip
      ("    invoke-static {v0}, Ljava/lang/System;->loadLibrary(Ljava/lang/String;)V\n".data) ≠
      endMethodTok := by decide
  have h7 : pyStrip ("    const-string v0, \"pairipcore\"\n".data) ≠ endMethodTok := by decide
  have h8 : pyStrip ("    return-void\n".data) ≠ endMethodTok := by decide
  have h9 : pyStrip (".end method\n".data) = endMethodTok := by decide
  simp [newClinitNL, vmOut, h1, h2, h3, h4, h5, h6, h7, h8, h9]

lemma vmFound_newBlock (t : List (List Char)) :
    vmFound false (newClinitNL ++ t) = true := by
  have h1 : isClinitDecl (".method static constructor <clinit>()V\n".data) = true := by decide
  simp [newClinitNL, vmFound, h1]

lemma vmOut_idem : ∀ (t : List (List Char)) (inside : Bool),
    vmOut false (vmOut inside t) = vmOut inside t := by
  intro t
  induction t with
  | nil => intro inside; cases inside <;> rfl
  | cons l ls ih =>
    intro inside
    cases inside with
    | false =>
      by_cases hd : isClinitDecl l
      · simp [vmOut, hd, vmOut_newBlock, ih true]
      · simp [vmOut, hd, ih false]
    | true => simpa [vmOut] using ih _

lemma vmFound_after : ∀ (t : List (List Char)) (inside : Bool),
    vmFound inside t = true → vmFound false (vmOut inside t) = true := by
  intro t
  induction t with
  | nil => intro inside h; simp [vmFound] at h
  | cons l ls ih =>
    intro inside h
    cases inside with
    | false =>
      by_cases hd : isClinitDecl l
      · simp [vmOut, hd, vmFound_newBlock]
      · simp only [vmOut, hd, Bool.not_false, Bool.true_and, Bool.false_eq_true, if_false,
          Bool.false_and] at h ⊢
        simp only [vmFound, hd, Bool.not_false, Bool.true_and, Bool.false_eq_true,
          if_false] at h
        simp [vmFound, hd, ih false h]
    | true =>
      simp only [vmFound] at h
      simpa [vmOut] using ih _ h

/-- C9.  The VMRunner `<clinit>` full replacement is idempotent at file
level: applying it twice gives the same bytes as applying it once (on the
second pass the replacement block's own declaration line matches and is
replaced by an identical block). -/
theorem clinit_replacement_idempotent (t : List (List Char)) :
    vmFile (vmFile t) = vmFile t := by
  by_cases hf : vmFound false t
  · have h1 : vmFile t = vmOut false t := by simp [vmFile, hf]
    rw [h1]
    have h2 : vmFound false (vmOut false t) = true := vmFound_after t false hf
    simp [vmFile, h2, vmOut_idem]
  · simp [vmFile, hf]

/-! ## Claim C5: the scanner skips annotation terminators -/

lemma endScan_pre (p t : List (List Char)) (hp : ∀ l ∈ p, isEndMethod l = false) :
    endScan (p ++ t) = p.length + endScan t := by
  induction p with
  | nil => simp [endScan]
  | cons l ls ih =>
    have h := hp l (List.mem_cons_self l ls)
    simp [endScan, h, ih (fun x hx => hp x (List.mem_cons_of_mem _ hx))]
    omega

/-- C5.  In a method body that holds an annotation sub-block, the skip
scanner stops at the method's own `.end method` line, never at the
`.end annotation` line: the detected index is the method terminator's and
differs from the annotation terminator's. -/
theorem scanner_skips_annot_end
    (b1 b2 rest : List (List Char)) (annL endL : List Char)
    (h1 : ∀ l ∈ b1, isEndMethod l = false)
    (h2 : ∀ l ∈ b2, isEndMethod l = false)
    (ha : pyStrip annL = ".end annotation".data)
    (he : isEndMethod endL = true) :
    endScan (b1 ++ annL :: (b2 ++ endL :: rest)) = b1.length + 1 + b2.length ∧
    b1.length + 1 + b2.length ≠ b1.length := by
  have hann : isEndMethod annL = false := by
    unfold isEndMethod
    rw [ha]; decide
  constructor
  · rw [endScan_pre b1 _ h1]
    simp only [endScan, hann, Bool.false_eq_true, if_false]
    rw [endScan_pre b2 _ h2]
    simp [endScan, he]
    omega
  · omega

theorem scanner_skips_annot_end_witness :
    endScan (["    .registers 1\n".data] ++
        "    .end annotation\n".data ::
        (["    return-void\n".data] ++ ".end method\n".data :: [])) = 3 ∧
    (3 : Nat) ≠ 1 := by
  have h := scanner_skips_annot_end
    ["    .registers 1\n".data] ["    return-void\n".data] []
    ("    .end annotation\n".data) (".end method\n".data)
    (by decide) (by decide) (by decide) (by decide)
  simpa using h

/-! ## Claim C8: target not found leaves the file untouched and never aborts -/

/-- C8.  A disassembly file in which no target signature is found is never
rewritten: the VMRunner rewrite without `method_start_found` and the
signature rewrite without any fired handler both leave the file as is, and
(with the supplemental libraries present) the run completes without
aborting regardless of how many targets were found. -/
theorem notfound_is_skip (v s : List (List Char)) (fs : FS) :
    (vmFound false v = false → vmFile v = v) ∧
    ((sigLoop sigFlags0 s).2 = sigFlags0 → sigFile s = s) ∧
    (soPresent fs = true → (patchFiles fs).isAborted = false) := by
  refine ⟨fun h => by simp [vmFile, h], fun h => ?_, fun h => ?_⟩
  · unfold sigFile
    rw [h]
    simp [sigAny, sigFlags0]
  · have h1 : soPresent
        { fs with vmFiles := fs.vmFiles.map vmFile, sigFiles := fs.sigFiles.map sigFile } =
        true := h
    simp [patchFiles, h1, PatchResult.isAborted]

/-! ## Claim C3: copies land only in the declared-supported-present intersection -/

/-- C3.  A supplemental library is copied only into a directory that holds
the protection library, whose architecture is both declared in the merged
archive and in the fixed supported whitelist; in particular, with declared
set `{armeabi-v7a, arm64-v8a}` and directories `{armeabi-v7a, arm64-v8a,
x86}`, nothing is copied into `x86` although it is whitelisted. -/
theorem arch_copy_intersection
    (archs : List (List Char)) (ds : List LibDir) (a f : List Char)
    (h : CopyEvent.copied a f ∈ (copyPhase archs ds).2) :
    (archs.contains a = true ∧ supportedArchs.contains a = true ∧
      ∃ d ∈ ds, d.arch = a ∧ d.files.contains pairipLib = true) ∧
    (copyPhase ["armeabi-v7a".data, "arm64-v8a".data]
        [⟨"armeabi-v7a".data, [pairipLib]⟩, ⟨"arm64-v8a".data, [pairipLib]⟩,
         ⟨"x86".data, [pairipLib]⟩]).2.all
      (fun e => match e with
        | CopyEvent.copied ar _ => !(ar = "x86".data : Bool)
        | CopyEvent.skipped _ => true) = true := by
  refine ⟨?_, by decide⟩
  simp only [copyPhase, List.mem_flatten, List.mem_map] at h
  obtain ⟨evs, ⟨d, hd, hevs⟩, hmem⟩ := h
  subst hevs
  unfold copyStep at hmem
  split at hmem
  next h1 =>
    split at hmem
    next h2 =>
      simp only [List.mem_map] at hmem
      obtain ⟨g, -, heq⟩ := hmem
      simp only [CopyEvent.copied.injEq] at heq
      obtain ⟨rfl, rfl⟩ := heq
      have h2' : archs.contains d.arch = true ∧ supportedArchs.contains d.arch = true := by
        simpa using h2
      exact ⟨h2'.1, h2'.2, d, hd, rfl, by simpa using h1⟩
    next h2 => simp at hmem
  next h1 => simp at hmem

theorem arch_copy_intersection_witness :
    (["arm64-v8a".data].contains ("arm64-v8a".data) = true ∧
      supportedArchs.contains ("arm64-v8a".data) = true ∧
      ∃ d ∈ [(⟨"arm64-v8a".data, [pairipLib]⟩ : LibDir)],
        d.arch = "arm64-v8a".data ∧ d.files.contains pairipLib = true) ∧
    (copyPhase ["armeabi-v7a".data, "arm64-v8a".data]
        [⟨"armeabi-v7a".data, [pairipLib]⟩, ⟨"arm64-v8a".data, [pairipLib]⟩,
         ⟨"x86".data, [pairipLib]⟩]).2.all
      (fun e => match e with
        | CopyEvent.copied ar _ => !(ar = "x86".data : Bool)
        | CopyEvent.skipped _ => true) = true :=
  arch_copy_intersection ["arm64-v8a".data] [⟨"arm64-v8a".data, [pairipLib]⟩]
    ("arm64-v8a".data) ("libpairipcorex.so".data) (by decide)

/-! ## Claim C10: empty declared set means no copies -/

/-- C10.  If the archive scan raises, or finds no protection-library
entries, the declared-architecture set is empty; with an empty declared set
no supplemental library is copied anywhere: every directory is left
unchanged and every directory holding the protection library draws a
skip warning. -/
theorem empty_archs_no_copy (es : List (List Char)) (ds : List LibDir) :
    declaredArchs none = [] ∧
    ((∀ e ∈ es, archOf e = none) → declaredArchs (some es) = []) ∧
    (∀ a f, CopyEvent.copied a f ∉ (copyPhase [] ds).2) ∧
    (copyPhase [] ds).1 = ds ∧
    (∀ d ∈ ds, d.files.contains pairipLib = true →
      CopyEvent.skipped d.arch ∈ (copyPhase [] ds).2) := by
  have hstep : ∀ d : LibDir, copyStep [] d =
      (d, if d.files.contains pairipLib then [CopyEvent.skipped d.arch] else []) := by
    intro d
    unfold copyStep
    cases hc : d.files.contains pairipLib <;> simp [hc]
  refine ⟨rfl, ?_, ?_, ?_, ?_⟩
  · intro h
    simp only [declaredArchs]
    induction es with
    | nil => rfl
    | cons e es ih =>
      rw [List.filterMap_cons, h e (List.mem_cons_self e es)]
      exact ih (fun x hx => h x (List.mem_cons_of_mem _ hx))
  · intro a f hmem
    simp only [copyPhase, List.mem_flatten, List.mem_map] at hmem
    obtain ⟨evs, ⟨d, _, hevs⟩, hmem⟩ := hmem
    rw [hstep d] at hevs
    subst hevs
    by_cases h : d.files.contains pairipLib <;> simp [h] at hmem
  · simp only [copyPhase]
    have : ∀ d ∈ ds, (copyStep [] d).1 = d := fun d _ => by rw [hstep d]
    induction ds with
    | nil => rfl
    | cons d ds ih =>
      simp only [List.map_cons, List.cons.injEq]
      exact ⟨by rw [hstep d], ih (fun x hx => this x (List.mem_cons_of_mem _ hx))⟩
  · intro d hd hp
    simp only [copyPhase, List.mem_flatten, List.mem_map]
    refine ⟨[CopyEvent.skipped d.arch], ⟨d, hd, ?_⟩, List.mem_singleton_self _⟩
    rw [hstep d, hp]
    simp

theorem empty_archs_no_copy_witness :
    declaredArchs none = [] ∧
    ((∀ e ∈ [("assets/x.txt".data), ("classes.dex".data)], archOf e = none) →
      declaredArchs (some [("assets/x.txt".data), ("classes.dex".data)]) = []) ∧
    (∀ a f, CopyEvent.copied a f ∉
      (copyPhase [] [(⟨"arm64-v8a".data, [pairipLib]⟩ : LibDir)]).2) ∧
    (copyPhase [] [(⟨"arm64-v8a".data, [pairipLib]⟩ : LibDir)]).1 =
      [(⟨"arm64-v8a".data, [pairipLib]⟩ : LibDir)] ∧
    (∀ d ∈ [(⟨"arm64-v8a".data, [pairipLib]⟩ : LibDir)],
      d.files.contains pairipLib = true →
      CopyEvent.skipped d.arch ∈
        (copyPhase [] [(⟨"arm64-v8a".data, [pairipLib]⟩ : LibDir)]).2) :=
  empty_archs_no_copy [("assets/x.txt".data), ("classes.dex".data)]
    [(⟨"arm64-v8a".data, [pairipLib]⟩ : LibDir)]

/-! ## Claim C1: the missing-dependency abort -/

/-- C1 counterexample.  With both supplemental libraries missing, the run
does abort, but the decompiled tree has already been mutated: the VMRunner
file was rewritten before the dependency check, refuting the claim that no
file under the decompiled tree is mutated. -/
theorem missing_dep_mutates_tree :
    patchFiles fsMissing =
      PatchResult.aborted { fsMissing with vmFiles := [newClinitNL] } ∧
    ([newClinitNL] : List (List (List Char))) ≠ fsMissing.vmFiles := by
  constructor
  · decide
  · decide

/-- C1 amended.  If a required supplemental library is absent from the
working directory, the run terminates with the fatal MissingDependency
status, and the abort happens before any library copy and before the
resource rewrite (the library directories and `file_paths.xml` files are
unchanged) — but the smali method rewrites of the same run have already
been applied to the tree. -/
theorem missing_dep_aborts_before_copy (fs : FS) (h : soPresent fs = false) :
    patchFiles fs = PatchResult.aborted
      { fs with vmFiles := fs.vmFiles.map vmFile, sigFiles := fs.sigFiles.map sigFile } ∧
    ({ fs with vmFiles := fs.vmFiles.map vmFile,
               sigFiles := fs.sigFiles.map sigFile } : FS).libDirs = fs.libDirs ∧
    ({ fs with vmFiles := fs.vmFiles.map vmFile,
               sigFiles := fs.sigFiles.map sigFile } : FS).xmlFiles = fs.xmlFiles := by
  have h1 : soPresent
      { fs with vmFiles := fs.vmFiles.map vmFile, sigFiles := fs.sigFiles.map sigFile } =
      false := h
  refine ⟨?_, rfl, rfl⟩
  simp [patchFiles, h1]

theorem missing_dep_aborts_before_copy_witness :
    patchFiles fsMissing = PatchResult.aborted
      { fsMissing with vmFiles := fsMissing.vmFiles.map vmFile,
                       sigFiles := fsMissing.sigFiles.map sigFile } ∧
    ({ fsMissing with vmFiles := fsMissing.vmFiles.map vmFile,
                      sigFiles := fsMissing.sigFiles.map sigFile } : FS).libDirs =
      fsMissing.libDirs ∧
    ({ fsMissing with vmFiles := fsMissing.vmFiles.map vmFile,
                      sigFiles := fsMissing.sigFiles.map sigFile } : FS).xmlFiles =
      fsMissing.xmlFiles :=
  missing_dep_aborts_before_copy fsMissing (by decide)

/-! ## Claim C2: the aggregate outcome -/

/-- C2 counterexample.  A run in which the library copy succeeds (the
directory gains both supplemental libraries, the library-copy category is
true) but no method or resource rewrite fires returns aggregate `false`:
the aggregate is not the OR of the four per-category outcomes, which would
be `true` here. -/
theorem aggregate_drops_library_copy :
    patchFiles fsLibOnly = PatchResult.ok
      { fsLibOnly with
        libDirs := [⟨"arm64-v8a".data, [pairipLib] ++ soFiles⟩] }
      false ⟨false, true, false⟩ ∧
    (false : Bool) ≠ (false || true || false) := by
  constructor
  · decide
  · decide

/-- C2 amended.  The aggregate returned by `patch_files` is the OR of the
method-rewrite and resource-rewrite outcomes only; the library-copy
outcome (and the manifest pruning, which happens outside `patch_files`)
does not feed into it. -/
theorem aggregate_is_method_or_resource (fs fs2 : FS) (agg : Bool) (cat : Categories)
    (h : patchFiles fs = PatchResult.ok fs2 agg cat) :
    agg = (cat.methodRewrite || cat.resourceRewrite) := by
  simp only [patchFiles] at h
  split at h
  · simp only [PatchResult.ok.injEq] at h
    obtain ⟨-, rfl, rfl⟩ := h
    simp [Bool.or_assoc]
  · exact absurd h (by simp)

theorem aggregate_is_method_or_resource_witness :
    (false : Bool) = (false || false) :=
  aggregate_is_method_or_resource fsLibOnly
    { fsLibOnly with libDirs := [⟨"arm64-v8a".data, [pairipLib] ++ soFiles⟩] }
    false ⟨false, true, false⟩ (by decide)

theorem notfound_is_skip_witness :
    (vmFound false [".class public La;\n".data] = false →
      vmFile [".class public La;\n".data] = [".class public La;\n".data]) ∧
    ((sigLoop sigFlags0 [".class public Lb;\n".data]).2 = sigFlags0 →
      sigFile [".class public Lb;\n".data] = [".class public Lb;\n".data]) ∧
    (soPresent ⟨[], [], soFiles, [], [], none⟩ = true →
      (patchFiles ⟨[], [], soFiles, [], [], none⟩).isAborted = false) :=
  notfound_is_skip [".class public La;\n".data] [".class public Lb;\n".data]
    ⟨[], [], soFiles, [], [], none⟩

/-! ## Claim C6: the `file_paths.xml` rewrite is idempotent

Consumer-level length bounds, then the unfolding equations of the fuelled
`re.sub`. -/

lemma ciConsume_len : ∀ (p t r : List Char), ciConsume p t = some r →
    r.length + p.length = t.length := by
  intro p
  induction p with
  | nil => intro t r h; simp only [ciConsume, Option.some.injEq] at h; subst h; simp
  | cons q ps ih =>
    intro t r h
    cases t with
    | nil => simp [ciConsume] at h
    | cons c cs =>
      simp only [ciConsume] at h
      split at h
      · have := ih cs r h
        simp only [List.length_cons]
        omega
      · exact absurd h (by simp)

lemma ciConsume_le {p t r : List Char} (h : ciConsume p t = some r) :
    r.length ≤ t.length := by
  have := ciConsume_len p t r h
  omega

lemma wsDrop_le : ∀ t : List Char, (wsDrop t).length ≤ t.length := by
  intro t
  induction t with
  | nil => simp [wsDrop]
  | cons c cs ih =>
    simp only [wsDrop]
    split
    · simp only [List.length_cons]; omega
    · simp

lemma wsPlus_lt {t r : List Char} (h : wsPlus t = some r) : r.length < t.length := by
  cases t with
  | nil => simp [wsPlus] at h
  | cons c cs =>
    simp only [wsPlus] at h
    split at h
    · simp only [Option.some.injEq] at h
      subst h
      have := wsDrop_le cs
      simp only [List.length_cons]
      omega
    · exact absurd h (by simp)

lemma scanQ_lt : ∀ (t r : List Char), scanQ t = some r → r.length < t.length := by
  intro t
  induction t with
  | nil => intro r h; simp [scanQ] at h
  | cons c cs ih =>
    intro r h
    simp only [scanQ] at h
    split at h
    · simp only [Option.some.injEq] at h; subst h; simp
    · have := ih r h
      simp only [List.length_cons]
      omega

lemma scanQPre_lt : ∀ (t a b : List Char), scanQPre t = some (a, b) →
    b.length < t.length := by
  intro t
  induction t with
  | nil => intro a b h; simp [scanQPre] at h
  | cons c cs ih =>
    intro a b h
    simp only [scanQPre] at h
    split at h
    · simp only [Option.some.injEq, Prod.mk.injEq] at h
      obtain ⟨-, rfl⟩ := h
      simp
    · cases hq : scanQPre cs with
      | none => rw [hq] at h; exact absurd h (by simp)
      | some pr =>
        rw [hq] at h
        simp only [Option.some.injEq, Prod.mk.injEq] at h
        obtain ⟨-, rfl⟩ := h
        have := ih pr.1 pr.2 (by rw [hq])
        simp only [List.length_cons]
        omega

lemma stage8_le {t r : List Char} (h : stage8 t = some r) : r.length ≤ t.length := by
  unfold stage8 at h
  have h1 := ciConsume_le h
  have h2 := wsDrop_le t
  omega

lemma stage7_le {t r : List Char} (h : stage7 t = some r) : r.length ≤ t.length := by
  unfold stage7 at h
  cases hq : scanQPre t with
  | none => rw [hq] at h; simp at h
  | some pr =>
    obtain ⟨a, b⟩ := pr
    rw [hq] at h
    by_cases hs : ciSuffB picLit a = true
    · simp only [Option.some_bind, hs, if_true] at h
      have h1 := stage8_le h
      have h2 := scanQPre_lt t a b hq
      omega
    · simp [hs] at h

lemma stage6_le {t r : List Char} (h : stage6 t = some r) : r.length ≤ t.length := by
  unfold stage6 at h
  cases hc : ciConsume pathLit t with
  | none => rw [hc] at h; exact absurd h (by simp)
  | some t1 =>
    rw [hc] at h
    have h1 := ciConsume_le hc
    have h2 := stage7_le h
    omega

lemma stage5_le {t r : List Char} (h : stage5 t = some r) : r.length ≤ t.length := by
  unfold stage5 at h
  cases hw : wsPlus t with
  | none => rw [hw] at h; exact absurd h (by simp)
  | some t1 =>
    rw [hw] at h
    have h1 := wsPlus_lt hw
    have h2 := stage6_le h
    omega

lemma stage4_le {t r : List Char} (h : stage4 t = some r) : r.length ≤ t.length := by
  unfold stage4 at h
  cases hq : scanQ t with
  | none => rw [hq] at h; exact absurd h (by simp)
  | some t1 =>
    rw [hq] at h
    have h1 := scanQ_lt t t1 hq
    have h2 := stage5_le h
    omega

lemma stage3_le {t r : List Char} (h : stage3 t = some r) : r.length ≤ t.length := by
  unfold stage3 at h
  cases hc : ciConsume nameLit t with
  | none => rw [hc] at h; exact absurd h (by simp)
  | some t1 =>
    rw [hc] at h
    have h1 := ciConsume_le hc
    have h2 := stage4_le h
    omega

lemma stage2_le {t r : List Char} (h : stage2 t = some r) : r.length ≤ t.length := by
  unfold stage2 at h
  cases hw : wsPlus t with
  | none => rw [hw] at h; exact absurd h (by simp)
  | some t1 =>
    rw [hw] at h
    have h1 := wsPlus_lt hw
    have h2 := stage3_le h
    omega

lemma pmatch_lt {t r : List Char} (h : pmatch t = some r) : r.length < t.length := by
  unfold pmatch at h
  cases hc : ciConsume extLit t with
  | none => rw [hc] at h; exact absurd h (by simp)
  | some t1 =>
    rw [hc] at h
    have h1 := ciConsume_len extLit t t1 hc
    have h2 := stage2_le h
    have h3 : extLit.length = 14 := by decide
    omega

lemma psubF_nil : ∀ f : Nat, psubF f [] = [] := by
  intro f
  cases f <;> rfl

lemma psubF_congr : ∀ (n f g : Nat) (t : List Char), t.length ≤ n → t.length ≤ f →
    t.length ≤ g → psubF f t = psubF g t := by
  intro n
  induction n with
  | zero =>
    intro f g t ht _ _
    have : t = [] := List.length_eq_zero.mp (Nat.le_zero.mp ht)
    subst this
    rw [psubF_nil, psubF_nil]
  | succ n ih =>
    intro f g t ht hf hg
    cases t with
    | nil => rw [psubF_nil, psubF_nil]
    | cons c cs =>
      simp only [List.length_cons] at ht hf hg
      obtain ⟨f', rfl⟩ : ∃ f', f = f' + 1 := ⟨f - 1, by omega⟩
      obtain ⟨g', rfl⟩ : ∃ g', g = g' + 1 := ⟨g - 1, by omega⟩
      cases hm : pmatch (c :: cs) with
      | some rest =>
        have hlt := pmatch_lt hm
        simp only [List.length_cons] at hlt
        simp only [psubF, hm]
        rw [ih f' g' rest (by omega) (by omega) (by omega)]
      | none =>
        simp only [psubF, hm]
        rw [ih f' g' cs (by omega) (by omega) (by omega)]

lemma psub_nil : psub [] = [] := rfl

lemma psub_cons_some {c : Char} {cs rest : List Char} (hm : pmatch (c :: cs) = some rest) :
    psub (c :: cs) = fpRepl ++ psub rest := by
  have hlt := pmatch_lt hm
  simp only [List.length_cons] at hlt
  show psubF (cs.length + 1) (c :: cs) = _
  simp only [psubF, hm]
  unfold psub
  rw [psubF_congr cs.length cs.length rest.length rest (by omega) (by omega) (by omega)]

lemma psub_cons_none {c : Char} {cs : List Char} (hm : pmatch (c :: cs) = none) :
    psub (c :: cs) = c :: psub cs := by
  show psubF (cs.length + 1) (c :: cs) = _
  simp only [psubF, hm]
  rfl

/-! Decomposition of the consumers over list appends. -/

lemma ciConsume_sub : ∀ (p a r b : List Char), ciConsume p a = some r →
    ciConsume p (a ++ b) = some (r ++ b) := by
  intro p
  induction p with
  | nil =>
    intro a r b h
    simp only [ciConsume, Option.some.injEq] at h
    subst h
    rfl
  | cons q ps ih =>
    intro a r b h
    cases a with
    | nil => simp [ciConsume] at h
    | cons c cs =>
      simp only [ciConsume] at h
      rw [List.cons_append]
      simp only [ciConsume]
      by_cases hq : ciEq q c = true
      · rw [if_pos hq] at h ⊢
        exact ih cs r b h
      · rw [if_neg hq] at h
        simp at h

lemma ciStops_none : ∀ (p a b : List Char), ciStops p a = true →
    ciConsume p (a ++ b) = none := by
  intro p
  induction p with
  | nil => intro a b h; simp [ciStops] at h
  | cons q ps ih =>
    intro a b h
    cases a with
    | nil => simp [ciStops] at h
    | cons c cs =>
      simp only [ciStops] at h
      rw [List.cons_append]
      simp only [ciConsume]
      by_cases hq : ciEq q c = true
      · rw [if_pos hq] at h ⊢
        exact ih cs b h
      · rw [if_neg hq]

/-- A literal none of whose characters compares equal to `<` cannot cross
into text starting with `<`: a successful consume stays inside `x`. -/
lemma lit_cross : ∀ (p x v r : List Char), (∀ c ∈ p, ciEq c '<' = false) →
    ciConsume p (x ++ '<' :: v) = some r →
    ∃ r', ciConsume p x = some r' ∧ r = r' ++ '<' :: v := by
  intro p
  induction p with
  | nil =>
    intro x v r _ h
    simp only [ciConsume, Option.some.injEq] at h
    exact ⟨x, rfl, h.symm⟩
  | cons q ps ih =>
    intro x v r hall h
    cases x with
    | nil =>
      simp only [List.nil_append, ciConsume] at h
      rw [if_neg (by simp [hall q (List.mem_cons_self q ps)])] at h
      simp at h
    | cons c cs =>
      rw [List.cons_append] at h
      simp only [ciConsume] at h ⊢
      by_cases hq : ciEq q c = true
      · rw [if_pos hq] at h ⊢
        exact ih cs v r (fun d hd => hall d (List.mem_cons_of_mem _ hd)) h
      · rw [if_neg hq] at h
        simp at h

lemma pmatch_nil : pmatch [] = none := by decide

lemma pmatch_head {c : Char} (t : List Char) (h : ciEq '<' c = false) :
    pmatch (c :: t) = none := by
  unfold pmatch
  rw [show extLit = '<' :: extTail from by decide]
  simp [ciConsume, h]

lemma wsDrop_not {c : Char} (t : List Char) (h : isPyWs c = false) :
    wsDrop (c :: t) = c :: t := by simp [wsDrop, h]

lemma wsPlus_not {c : Char} (t : List Char) (h : isPyWs c = false) :
    wsPlus (c :: t) = none := by simp [wsPlus, h]

lemma wsPlus_ws {c : Char} (t : List Char) (h : isPyWs c = true) :
    wsPlus (c :: t) = some (wsDrop t) := by simp [wsPlus, h]

lemma wsDrop_all : ∀ (a b : List Char), a.all isPyWs = true →
    wsDrop (a ++ b) = wsDrop b := by
  intro a
  induction a with
  | nil => intro b _; rfl
  | cons c cs ih =>
    intro b h
    simp only [List.all_cons, Bool.and_eq_true] at h
    rw [List.cons_append]
    simp only [wsDrop]
    rw [if_pos h.1]
    exact ih b h.2

lemma wsDrop_not_all : ∀ (a b : List Char), a.all isPyWs = false →
    wsDrop (a ++ b) = wsDrop a ++ b ∧
    ∃ c cs, wsDrop a = c :: cs ∧ isPyWs c = false := by
  intro a
  induction a with
  | nil => intro b h; simp at h
  | cons c cs ih =>
    intro b h
    by_cases hc : isPyWs c = true
    · have hcs : cs.all isPyWs = false := by
        simp only [List.all_cons, hc, Bool.true_and] at h
        exact h
      obtain ⟨h1, c0, cs0, h2, h3⟩ := ih b hcs
      refine ⟨?_, c0, cs0, ?_, h3⟩
      · rw [List.cons_append]
        simp only [wsDrop]
        rw [if_pos hc, if_pos hc]
        exact h1
      · simp only [wsDrop]
        rw [if_pos hc]
        exact h2
    · have hc' : isPyWs c = false := by simpa using hc
      refine ⟨?_, c, cs, ?_, hc'⟩
      · rw [List.cons_append]
        simp [wsDrop, hc']
      · simp [wsDrop, hc']

lemma scanQ_sub : ∀ (a r b : List Char), scanQ a = some r →
    scanQ (a ++ b) = some (r ++ b) := by
  intro a
  induction a with
  | nil => intro r b h; simp [scanQ] at h
  | cons c cs ih =>
    intro r b h
    simp only [scanQ] at h
    rw [List.cons_append]
    simp only [scanQ]
    by_cases hc : c = '"'
    · rw [if_pos hc] at h ⊢
      simp only [Option.some.injEq] at h
      subst h
      rfl
    · rw [if_neg hc] at h ⊢
      exact ih r b h

lemma scanQ_none_app : ∀ (a b : List Char), scanQ a = none →
    scanQ (a ++ b) = scanQ b := by
  intro a
  induction a with
  | nil => intro b _; rfl
  | cons c cs ih =>
    intro b h
    simp only [scanQ] at h
    rw [List.cons_append]
    simp only [scanQ]
    by_cases hc : c = '"'
    · rw [if_pos hc] at h; simp at h
    · rw [if_neg hc] at h ⊢
      exact ih b h

lemma scanQPre_sub : ∀ (a x r b : List Char), scanQPre a = some (x, r) →
    scanQPre (a ++ b) = some (x, r ++ b) := by
  intro a
  induction a with
  | nil => intro x r b h; simp [scanQPre] at h
  | cons c cs ih =>
    intro x r b h
    simp only [scanQPre] at h
    rw [List.cons_append]
    simp only [scanQPre]
    by_cases hc : c = '"'
    · rw [if_pos hc] at h ⊢
      simp only [Option.some.injEq, Prod.mk.injEq] at h
      obtain ⟨rfl, rfl⟩ := h
      rfl
    · rw [if_neg hc] at h ⊢
      cases hq : scanQPre cs with
      | none => rw [hq] at h; simp at h
      | some pr =>
        obtain ⟨a', b'⟩ := pr
        rw [hq] at h
        simp only [Option.some.injEq, Prod.mk.injEq] at h
        obtain ⟨rfl, rfl⟩ := h
        rw [ih a' b' b hq]

lemma scanQPre_none_app : ∀ (a b : List Char), scanQPre a = none →
    scanQPre (a ++ b) = (scanQPre b).map (fun pr => (a ++ pr.1, pr.2)) := by
  intro a
  induction a with
  | nil =>
    intro b _
    cases hb : scanQPre b with
    | none => simp [hb]
    | some pr => simp [hb]
  | cons c cs ih =>
    intro b h
    simp only [scanQPre] at h
    rw [List.cons_append]
    simp only [scanQPre]
    by_cases hc : c = '"'
    · rw [if_pos hc] at h; simp at h
    · rw [if_neg hc] at h ⊢
      cases hq : scanQPre cs with
      | none =>
        rw [ih b hq]
        cases hb : scanQPre b with
        | none => simp [hb]
        | some pr => simp [hb]
      | some pr => rw [hq] at h; simp at h

lemma ciPrefB_long : ∀ (p x y : List Char), p.length ≤ x.length →
    ciPrefB p (x ++ y) = ciPrefB p x := by
  intro p
  induction p with
  | nil => intro x y _; rfl
  | cons q ps ih =>
    intro x y hl
    cases x with
    | nil => simp at hl
    | cons c cs =>
      rw [List.cons_append]
      unfold ciPrefB
      simp only [ciConsume]
      by_cases hq : ciEq q c = true
      · rw [if_pos hq, if_pos hq]
        exact ih cs y (by simpa using hl)
      · rw [if_neg hq, if_neg hq]

lemma ciSuffB_app (p a b : List Char) (h : p.length ≤ b.length) :
    ciSuffB p (a ++ b) = ciSuffB p b := by
  unfold ciSuffB
  rw [List.reverse_append]
  exact ciPrefB_long p.reverse b.reverse a.reverse (by simpa using h)

/-! The replacement string can never take part in a later match. -/

lemma fpRepl_cons : fpRepl = '<' :: fpTail := by decide

lemma scanQPre_fpRepl : scanQPre fpRepl = some (fpPre, fpRest) := by decide

lemma scanQ_fpRepl : scanQ fpRepl = some fpRest := by decide

lemma ciStops_ext_fpRepl : ciStops extLit fpRepl = true := by decide

lemma picLit_not_suff : ciSuffB picLit fpPre = false := by decide

lemma fpTail_no_lt : ∀ c ∈ fpTail, ciEq '<' c = false := by decide

lemma extTail_no_lt : ∀ c ∈ extTail, ciEq c '<' = false := by decide

lemma nameLit_no_lt : ∀ c ∈ nameLit, ciEq c '<' = false := by decide

lemma pathLit_no_lt : ∀ c ∈ pathLit, ciEq c '<' = false := by decide

lemma closeLit_no_lt : ∀ c ∈ closeLit, ciEq c '<' = false := by decide

lemma stage6_R (v : List Char) : stage6 (fpRepl ++ v) = none := by
  unfold stage6
  rw [fpRepl_cons, List.cons_append,
    show pathLit = 'p' :: "ath=\"Android/data/".data from by decide]
  have h : ciEq 'p' '<' = false := by decide
  simp [ciConsume, h]

lemma stage3_R (v : List Char) : stage3 (fpRepl ++ v) = none := by
  unfold stage3
  rw [fpRepl_cons, List.cons_append,
    show nameLit = 'n' :: "ame=\"".data from by decide]
  have h : ciEq 'n' '<' = false := by decide
  simp [ciConsume, h]

lemma stage5_mRest (v : List Char) : stage5 (fpRest ++ v) = none := by
  unfold stage5
  rw [show fpRest = 'm' :: "y_images\" path=\"Pictures/\" />".data from by decide,
    List.cons_append, wsPlus_not _ (by decide)]
  rfl

lemma pmatch_R (v : List Char) : pmatch (fpRepl ++ v) = none := by
  unfold pmatch
  rw [ciStops_none extLit fpRepl v ciStops_ext_fpRepl]
  rfl

/-! Stage by stage: a match that succeeds on `x ++ fpRepl ++ v` never reads
past `x`, so it succeeds on `x ++ w` for any `w`. -/

lemma cross8 (x v w r : List Char) (h : stage8 (x ++ (fpRepl ++ v)) = some r) :
    (stage8 (x ++ w)).isSome = true := by
  unfold stage8 at h ⊢
  cases ha : x.all isPyWs with
  | true =>
    rw [wsDrop_all x _ ha] at h
    rw [fpRepl_cons, List.cons_append, wsDrop_not _ (by decide)] at h
    rw [show closeLit = '/' :: ['>'] from by decide] at h
    simp only [ciConsume] at h
    rw [if_neg (by simp [show ciEq '/' '<' = false from by decide])] at h
    simp at h
  | false =>
    obtain ⟨h1, c, cs, h2, h3⟩ := wsDrop_not_all x (fpRepl ++ v) ha
    obtain ⟨h1', -, -, -, -⟩ := wsDrop_not_all x w ha
    rw [h1] at h
    rw [h1']
    rw [h2] at h ⊢
    cases cs with
    | nil =>
      rw [show closeLit = '/' :: ['>'] from by decide] at h
      rw [List.cons_append, List.nil_append] at h
      simp only [ciConsume] at h
      by_cases hc : ciEq '/' c = true
      · rw [if_pos hc] at h
        rw [if_neg (by simp [show ciEq '>' '<' = false from by decide])] at h
        simp at h
      · rw [if_neg hc] at h
        simp at h
    | cons c2 cs2 =>
      rw [show closeLit = '/' :: ['>'] from by decide] at h ⊢
      rw [List.cons_append, List.cons_append] at h ⊢
      simp only [ciConsume] at h ⊢
      by_cases hc : ciEq '/' c = true
      · rw [if_pos hc] at h ⊢
        by_cases hc2 : ciEq '>' c2 = true
        · rw [if_pos hc2]
          simp
        · rw [if_neg hc2] at h
          simp at h
      · rw [if_neg hc] at h
        simp at h

lemma cross7 (x v w r : List Char) (h : stage7 (x ++ (fpRepl ++ v)) = some r) :
    (stage7 (x ++ w)).isSome = true := by
  unfold stage7 at h ⊢
  cases hq : scanQPre x with
  | some pr =>
    obtain ⟨a, b⟩ := pr
    rw [scanQPre_sub x a b _ hq] at h
    rw [scanQPre_sub x a b w hq]
    by_cases hs : ciSuffB picLit a = true
    · simp only [Option.some_bind, hs, if_true] at h ⊢
      exact cross8 b v w r h
    · simp [hs] at h
  | none =>
    rw [scanQPre_none_app x _ hq] at h
    rw [scanQPre_sub fpRepl fpPre fpRest v scanQPre_fpRepl] at h
    simp only [Option.map_some', Option.some_bind] at h
    rw [ciSuffB_app picLit x fpPre (by decide), picLit_not_suff] at h
    simp at h

lemma cross6 (x v w r : List Char) (h : stage6 (x ++ (fpRepl ++ v)) = some r) :
    (stage6 (x ++ w)).isSome = true := by
  unfold stage6 at h ⊢
  rw [fpRepl_cons, List.cons_append] at h
  cases hc : ciConsume pathLit (x ++ '<' :: (fpTail ++ v)) with
  | none => rw [hc] at h; simp at h
  | some t1 =>
    obtain ⟨r', hr', rfl⟩ := lit_cross pathLit x (fpTail ++ v) t1 pathLit_no_lt hc
    rw [hc] at h
    simp only [Option.some_bind] at h
    rw [show ('<' :: (fpTail ++ v) : List Char) = fpRepl ++ v from by
      rw [fpRepl_cons, List.cons_append]] at h
    have hs := cross7 r' v w r h
    rw [ciConsume_sub pathLit x r' w hr']
    simpa using hs

lemma cross5 (x v w r : List Char) (h : stage5 (x ++ (fpRepl ++ v)) = some r) :
    (stage5 (x ++ w)).isSome = true := by
  unfold stage5 at h ⊢
  cases x with
  | nil =>
    rw [List.nil_append, fpRepl_cons, List.cons_append, wsPlus_not _ (by decide)] at h
    simp at h
  | cons c cs =>
    rw [List.cons_append] at h ⊢
    by_cases hc : isPyWs c = true
    · rw [wsPlus_ws _ hc] at h
      rw [wsPlus_ws _ hc]
      simp only [Option.some_bind] at h ⊢
      cases ha : cs.all isPyWs with
      | true =>
        rw [wsDrop_all cs _ ha] at h
        rw [fpRepl_cons, List.cons_append, wsDrop_not _ (by decide)] at h
        rw [show ('<' :: (fpTail ++ v) : List Char) = fpRepl ++ v from by
          rw [fpRepl_cons, List.cons_append]] at h
        rw [stage6_R v] at h
        simp at h
      | false =>
        obtain ⟨h1, -, -, -, -⟩ := wsDrop_not_all cs (fpRepl ++ v) ha
        obtain ⟨h1', -, -, -, -⟩ := wsDrop_not_all cs w ha
        rw [h1] at h
        rw [h1']
        exact cross6 (wsDrop cs) v w r h
    · have hc' : isPyWs c = false := by simpa using hc
      rw [wsPlus_not _ hc'] at h
      simp at h

lemma cross4 (x v w r : List Char) (h : stage4 (x ++ (fpRepl ++ v)) = some r) :
    (stage4 (x ++ w)).isSome = true := by
  unfold stage4 at h ⊢
  cases hq : scanQ x with
  | some r1 =>
    rw [scanQ_sub x r1 _ hq] at h
    rw [scanQ_sub x r1 w hq]
    simp only [Option.some_bind] at h ⊢
    exact cross5 r1 v w r h
  | none =>
    rw [scanQ_none_app x _ hq] at h
    rw [scanQ_sub fpRepl fpRest v scanQ_fpRepl] at h
    simp only [Option.some_bind] at h
    rw [stage5_mRest v] at h
    simp at h

lemma cross3 (x v w r : List Char) (h : stage3 (x ++ (fpRepl ++ v)) = some r) :
    (stage3 (x ++ w)).isSome = true := by
  unfold stage3 at h ⊢
  rw [fpRepl_cons, List.cons_append] at h
  cases hc : ciConsume nameLit (x ++ '<' :: (fpTail ++ v)) with
  | none => rw [hc] at h; simp at h
  | some t1 =>
    obtain ⟨r', hr', rfl⟩ := lit_cross nameLit x (fpTail ++ v) t1 nameLit_no_lt hc
    rw [hc] at h
    simp only [Option.some_bind] at h
    rw [show ('<' :: (fpTail ++ v) : List Char) = fpRepl ++ v from by
      rw [fpRepl_cons, List.cons_append]] at h
    have hs := cross4 r' v w r h
    rw [ciConsume_sub nameLit x r' w hr']
    simpa using hs

lemma cross2 (x v w r : List Char) (h : stage2 (x ++ (fpRepl ++ v)) = some r) :
    (stage2 (x ++ w)).isSome = true := by
  unfold stage2 at h ⊢
  cases x with
  | nil =>
    rw [List.nil_append, fpRepl_cons, List.cons_append, wsPlus_not _ (by decide)] at h
    simp at h
  | cons c cs =>
    rw [List.cons_append] at h ⊢
    by_cases hc : isPyWs c = true
    · rw [wsPlus_ws _ hc] at h
      rw [wsPlus_ws _ hc]
      simp only [Option.some_bind] at h ⊢
      cases ha : cs.all isPyWs with
      | true =>
        rw [wsDrop_all cs _ ha] at h
        rw [fpRepl_cons, List.cons_append, wsDrop_not _ (by decide)] at h
        rw [show ('<' :: (fpTail ++ v) : List Char) = fpRepl ++ v from by
          rw [fpRepl_cons, List.cons_append]] at h
        rw [stage3_R v] at h
        simp at h
      | false =>
        obtain ⟨h1, -, -, -, -⟩ := wsDrop_not_all cs (fpRepl ++ v) ha
        obtain ⟨h1', -, -, -, -⟩ := wsDrop_not_all cs w ha
        rw [h1] at h
        rw [h1']
        exact cross3 (wsDrop cs) v w r h
    · have hc' : isPyWs c = false := by simpa using hc
      rw [wsPlus_not _ hc'] at h
      simp at h

lemma cross_pmatch (x v w r : List Char) (hx : x ≠ [])
    (h : pmatch (x ++ (fpRepl ++ v)) = some r) :
    (pmatch (x ++ w)).isSome = true := by
  unfold pmatch at h ⊢
  cases x with
  | nil => exact absurd rfl hx
  | cons c cs =>
    rw [List.cons_append] at h ⊢
    rw [show extLit = '<' :: extTail from by decide] at h ⊢
    simp only [ciConsume] at h ⊢
    by_cases hc : ciEq '<' c = true
    · rw [if_pos hc] at h ⊢
      rw [fpRepl_cons, List.cons_append] at h
      cases hcc : ciConsume extTail (cs ++ '<' :: (fpTail ++ v)) with
      | none => rw [hcc] at h; simp at h
      | some t1 =>
        obtain ⟨r', hr', rfl⟩ := lit_cross extTail cs (fpTail ++ v) t1 extTail_no_lt hcc
        rw [hcc] at h
        simp only [Option.some_bind] at h
        rw [show ('<' :: (fpTail ++ v) : List Char) = fpRepl ++ v from by
          rw [fpRepl_cons, List.cons_append]] at h
        have hs := cross2 r' v w r h
        rw [ciConsume_sub extTail cs r' w hr']
        simpa using hs
    · rw [if_neg hc] at h
      simp at h

/-! Safety of the substitution output. -/

lemma suffix_split {α : Type} : ∀ (a s b : List α), s <:+ a ++ b →
    s <:+ b ∨ ∃ s', s = s' ++ b ∧ s' <:+ a := by
  intro a
  induction a with
  | nil => intro s b h; left; simpa using h
  | cons x xs ih =>
    intro s b h
    obtain ⟨t, ht⟩ := h
    cases t with
    | nil =>
      right
      exact ⟨x :: xs, by simpa using ht, List.suffix_rfl⟩
    | cons y ys =>
      simp only [List.cons_append, List.cons.injEq] at ht
      rcases ih s b ⟨ys, ht.2⟩ with h1 | ⟨s', rfl, hs'⟩
      · left; exact h1
      · right
        exact ⟨s', rfl, hs'.trans (List.suffix_cons x xs)⟩

lemma fp_suffix_head {s2 : List Char} (h : s2 <:+ fpRepl) (hne : s2 ≠ fpRepl)
    (hne2 : s2 ≠ []) : ∃ h0 t0, s2 = h0 :: t0 ∧ ciEq '<' h0 = false := by
  obtain ⟨t, ht⟩ := h
  cases s2 with
  | nil => exact absurd rfl hne2
  | cons h0 t0 =>
    refine ⟨h0, t0, rfl, ?_⟩
    cases t with
    | nil =>
      simp only [List.nil_append] at ht
      exact absurd ht hne
    | cons y ys =>
      rw [fpRepl_cons] at ht
      simp only [List.cons_append, List.cons.injEq] at ht
      exact fpTail_no_lt h0 (by
        rw [← ht.2]
        exact List.mem_append_right ys (List.mem_cons_self h0 t0))

lemma psearch_false_of {y : List Char} (h : SafeP y) : psearch y = false := by
  induction y with
  | nil => rfl
  | cons c cs ih =>
    simp only [psearch]
    rw [h (c :: cs) List.suffix_rfl]
    simp only [Option.isSome_none, Bool.false_or]
    exact ih (fun s hs => h s (hs.trans (List.suffix_cons c cs)))

lemma psub_id_of : ∀ (y : List Char), SafeP y → psub y = y := by
  intro y
  induction y with
  | nil => intro _; rfl
  | cons c cs ih =>
    intro h
    rw [psub_cons_none (h (c :: cs) List.suffix_rfl)]
    rw [ih (fun s hs => h s (hs.trans (List.suffix_cons c cs)))]

lemma psub_safe_aux : ∀ (n : Nat) (t u : List Char), t.length ≤ n →
    (∀ s : List Char, s ≠ [] → s <:+ u → pmatch (s ++ t) = none) →
    SafeP (u ++ psub t) := by
  intro n
  induction n with
  | zero =>
    intro t u ht hu s hs
    have ht0 : t = [] := List.length_eq_zero.mp (Nat.le_zero.mp ht)
    subst ht0
    rw [psub_nil, List.append_nil] at hs
    rcases eq_or_ne s [] with rfl | hne
    · exact pmatch_nil
    · simpa using hu s hne hs
  | succ n ih =>
    intro t u ht hu s hs
    cases t with
    | nil =>
      rw [psub_nil, List.append_nil] at hs
      rcases eq_or_ne s [] with rfl | hne
      · exact pmatch_nil
      · simpa using hu s hne hs
    | cons c cs =>
      simp only [List.length_cons] at ht
      cases hm : pmatch (c :: cs) with
      | some rest =>
        have hlt := pmatch_lt hm
        simp only [List.length_cons] at hlt
        rw [psub_cons_some hm] at hs
        have hpr : SafeP (psub rest) := by
          have h0 := ih rest [] (by omega)
            (fun s hne hsuf => absurd (List.suffix_nil.mp hsuf) hne)
          intro s2 hs2
          exact h0 s2 (by simpa using hs2)
        rcases suffix_split u s _ hs with h1 | ⟨s', rfl, hs'⟩
        · rcases suffix_split fpRepl s _ h1 with h2 | ⟨s2, rfl, hs2⟩
          · exact hpr s h2
          · rcases eq_or_ne s2 fpRepl with rfl | hne
            · exact pmatch_R _
            · rcases eq_or_ne s2 [] with rfl | hne2
              · rw [List.nil_append]
                exact hpr _ List.suffix_rfl
              · obtain ⟨h0, t0, rfl, hh⟩ := fp_suffix_head hs2 hne hne2
                rw [List.cons_append]
                exact pmatch_head _ hh
        · rcases eq_or_ne s' [] with rfl | hne
          · rw [List.nil_append]
            exact pmatch_R _
          · cases hp : pmatch (s' ++ (fpRepl ++ psub rest)) with
            | none => rfl
            | some rr =>
              have hcross := cross_pmatch s' (psub rest) (c :: cs) rr hne hp
              rw [hu s' hne hs'] at hcross
              simp at hcross
      | none =>
        rw [psub_cons_none hm] at hs
        have heq : u ++ c :: psub cs = (u ++ [c]) ++ psub cs := by simp
        rw [heq] at hs
        refine ih cs (u ++ [c]) (by omega) ?_ s hs
        intro s2 hne hsuf
        rcases suffix_split u s2 [c] hsuf with h1 | ⟨s'', rfl, hs''⟩
        · obtain ⟨t2, ht2⟩ := h1
          cases t2 with
          | nil =>
            have hs2c : s2 = [c] := by simpa using ht2
            rw [hs2c]
            simpa using hm
          | cons y ys =>
            exfalso
            simp only [List.cons_append, List.cons.injEq] at ht2
            exact hne (List.append_eq_nil.mp ht2.2).2
        · rcases eq_or_ne s'' [] with rfl | hne2
          · rw [List.nil_append]
            simpa using hm
          · rw [List.append_assoc]
            have hcc : [c] ++ cs = c :: cs := rfl
            rw [hcc]
            exact hu s'' hne2 hs''

/-! ## Claim C6: the theorem -/

/-- C6.  Applying the `file_paths.xml` rewrite twice yields output
byte-identical to one application: after the first substitution the
pattern matches nowhere in the result, so the second application performs
no mutation and in particular does not duplicate the replacement element;
the guarded per-file operation is idempotent as well. -/
theorem fp_rewrite_idempotent (c : List Char) :
    psearch (psub c) = false ∧ psub (psub c) = psub c ∧ fpFile (fpFile c) = fpFile c := by
  have hsafe : SafeP (psub c) := by
    have h0 := psub_safe_aux c.length c [] le_rfl
      (fun s hne hsuf => absurd (List.suffix_nil.mp hsuf) hne)
    intro s hs
    exact h0 s (by simpa using hs)
  have h1 : psearch (psub c) = false := psearch_false_of hsafe
  have h2 : psub (psub c) = psub c := psub_id_of _ hsafe
  refine ⟨h1, h2, ?_⟩
  by_cases hc : psearch c = true
  · simp [fpFile, hc, h1, h2]
  · simp [fpFile, hc]

/-! ## Claim C7: the manifest entry pruner

Length bounds and unfolding equations for the element `re.sub`. -/

lemma tryEnd_some : ∀ (p0 p : Nat) (t : List Char), tryEnd t p0 = some p →
    t.get? p = some '/' ∧ t.get? (p + 1) = some '>' ∧ 1 ≤ p ∧ p ≤ p0 := by
  intro p0
  induction p0 with
  | zero => intro p t h; simp [tryEnd] at h
  | succ q ih =>
    intro p t h
    simp only [tryEnd] at h
    split at h
    · rename_i hc
      simp only [Option.some.injEq] at h
      subst h
      exact ⟨hc.1, hc.2, by omega, le_refl _⟩
    · obtain ⟨g1, g2, g3, g4⟩ := ih p t h
      exact ⟨g1, g2, g3, by omega⟩

lemma tryTok_some_len : ∀ (k : Nat) (t tok r : List Char), tryTok t tok k = some r →
    r.length < t.length := by
  intro k
  induction k with
  | zero => intro t tok r h; simp [tryTok] at h
  | succ q ih =>
    intro t tok r h
    simp only [tryTok] at h
    split at h
    · cases he : tryEnd (t.drop (q + 1 + tok.length))
          (ltFreeLen (t.drop (q + 1 + tok.length))) with
      | some p =>
        rw [he] at h
        simp only [Option.some.injEq] at h
        subst h
        obtain ⟨-, h2, -, -⟩ := tryEnd_some _ _ _ he
        have hlen : p + 1 < (t.drop (q + 1 + tok.length)).length := by
          rcases List.get?_eq_some.mp h2 with ⟨hh, -⟩
          exact hh
        simp only [List.length_drop] at hlen ⊢
        omega
      | none =>
        rw [he] at h
        exact ih t tok r h
    · exact ih t tok r h

lemma elemMatch_lt {kind tok t r : List Char} (h : elemMatch kind tok t = some r) :
    r.length < t.length := by
  unfold elemMatch at h
  split at h
  · have h1 := tryTok_some_len _ _ _ _ h
    simp only [List.length_drop] at h1
    omega
  · simp at h

lemma elemSubF_nil : ∀ (f : Nat) (kind tok : List Char), elemSubF f kind tok [] = [] := by
  intro f kind tok
  cases f <;> rfl

lemma elemSubF_congr : ∀ (n f g : Nat) (kind tok t : List Char), t.length ≤ n →
    t.length ≤ f → t.length ≤ g → elemSubF f kind tok t = elemSubF g kind tok t := by
  intro n
  induction n with
  | zero =>
    intro f g kind tok t ht _ _
    have : t = [] := List.length_eq_zero.mp (Nat.le_zero.mp ht)
    subst this
    rw [elemSubF_nil, elemSubF_nil]
  | succ n ih =>
    intro f g kind tok t ht hf hg
    cases t with
    | nil => rw [elemSubF_nil, elemSubF_nil]
    | cons c cs =>
      simp only [List.length_cons] at ht hf hg
      obtain ⟨f', rfl⟩ : ∃ f', f = f' + 1 := ⟨f - 1, by omega⟩
      obtain ⟨g', rfl⟩ : ∃ g', g = g' + 1 := ⟨g - 1, by omega⟩
      cases hm : elemMatch kind tok (c :: cs) with
      | some rest =>
        have hlt := elemMatch_lt hm
        simp only [List.length_cons] at hlt
        simp only [elemSubF, hm]
        exact ih f' g' kind tok rest (by omega) (by omega) (by omega)
      | none =>
        simp only [elemSubF, hm]
        rw [ih f' g' kind tok cs (by omega) (by omega) (by omega)]

lemma elemSub_nil (kind tok : List Char) : elemSub kind tok [] = [] := rfl

lemma elemSub_cons_some {kind tok : List Char} {c : Char} {cs rest : List Char}
    (hm : elemMatch kind tok (c :: cs) = some rest) :
    elemSub kind tok (c :: cs) = elemSub kind tok rest := by
  have hlt := elemMatch_lt hm
  simp only [List.length_cons] at hlt
  show elemSubF (cs.length + 1) kind tok (c :: cs) = _
  simp only [elemSubF, hm]
  unfold elemSub
  exact elemSubF_congr cs.length cs.length rest.length kind tok rest
    (by omega) (by omega) (by omega)

lemma elemSub_cons_none {kind tok : List Char} {c : Char} {cs : List Char}
    (hm : elemMatch kind tok (c :: cs) = none) :
    elemSub kind tok (c :: cs) = c :: elemSub kind tok cs := by
  show elemSubF (cs.length + 1) kind tok (c :: cs) = _
  simp only [elemSubF, hm]
  rfl

/-! Offsets at which the class-name token can match. -/

lemma isPrefixOf_self_app : ∀ (p x : List Char), p.isPrefixOf (p ++ x) = true := by
  intro p
  induction p with
  | nil => intro x; simp
  | cons c cs ih => intro x; simp [List.isPrefixOf, ih]

lemma slash_free_prefix : ∀ (tok attrs r2 : List Char), (∀ c ∈ tok, ¬c = '/') →
    tok.isPrefixOf (attrs ++ '/' :: r2) = true →
    tok.isPrefixOf attrs = true ∧ tok.length ≤ attrs.length := by
  intro tok
  induction tok with
  | nil => intro attrs r2 _ _; exact ⟨by simp, by simp⟩
  | cons c cs ih =>
    intro attrs r2 hf h
    cases attrs with
    | nil =>
      simp only [List.nil_append, List.isPrefixOf, Bool.and_eq_true, beq_iff_eq] at h
      exact absurd h.1 (hf c (List.mem_cons_self c cs))
    | cons a as =>
      simp only [List.cons_append, List.isPrefixOf, Bool.and_eq_true] at h
      obtain ⟨h1, h2⟩ := h
      obtain ⟨h3, h4⟩ := ih as r2 (fun d hd => hf d (List.mem_cons_of_mem _ hd)) h2
      refine ⟨?_, by simp only [List.length_cons]; omega⟩
      simp [List.isPrefixOf, h1, h3]

lemma isSub_of_prefix_drop : ∀ (attrs : List Char) (o : Nat) (tok : List Char),
    tok.isPrefixOf (attrs.drop o) = true → isSub tok attrs = true := by
  intro attrs
  induction attrs with
  | nil =>
    intro o tok h
    simp only [List.drop_nil] at h
    cases tok with
    | nil => rfl
    | cons c cs => simp [List.isPrefixOf] at h
  | cons a as ih =>
    intro o tok h
    cases o with
    | zero =>
      simp only [List.drop_zero] at h
      simp [isSub, h]
    | succ o' =>
      simp only [List.drop_succ_cons] at h
      simp [isSub, ih o' tok h]

lemma drop_app_le : ∀ (a b : List Char) (o : Nat), o ≤ a.length →
    (a ++ b).drop o = a.drop o ++ b := by
  intro a
  induction a with
  | nil =>
    intro b o h
    simp only [List.length_nil, Nat.le_zero] at h
    subst h
    rfl
  | cons x xs ih =>
    intro b o h
    cases o with
    | zero => rfl
    | succ o' =>
      simp only [List.cons_append, List.drop_succ_cons]
      exact ih b o' (by simpa using h)

lemma gtFreeLen_app : ∀ (a b : List Char), (∀ c ∈ a, ¬c = '>') →
    gtFreeLen (a ++ b) = a.length + gtFreeLen b := by
  intro a
  induction a with
  | nil => intro b _; simp
  | cons c cs ih =>
    intro b h
    rw [List.cons_append]
    simp only [gtFreeLen]
    rw [if_neg (h c (List.mem_cons_self c cs))]
    rw [ih b (fun d hd => h d (List.mem_cons_of_mem _ hd))]
    simp only [List.length_cons]
    omega

lemma ltFreeLen_app : ∀ (a b : List Char), (∀ c ∈ a, ¬c = '<') →
    ltFreeLen (a ++ b) = a.length + ltFreeLen b := by
  intro a
  induction a with
  | nil => intro b _; simp
  | cons c cs ih =>
    intro b h
    rw [List.cons_append]
    simp only [ltFreeLen]
    rw [if_neg (h c (List.mem_cons_self c cs))]
    rw [ih b (fun d hd => h d (List.mem_cons_of_mem _ hd))]
    simp only [List.length_cons]
    omega

/-! Drivers for the two greedy searches. -/

lemma tryEnd_unique : ∀ (p0 : Nat) (t : List Char) (pstar : Nat),
    t.get? pstar = some '/' → t.get? (pstar + 1) = some '>' → 1 ≤ pstar → pstar ≤ p0 →
    (∀ q, pstar < q → q ≤ p0 → ¬(t.get? q = some '/' ∧ t.get? (q + 1) = some '>')) →
    tryEnd t p0 = some pstar := by
  intro p0
  induction p0 with
  | zero => intro t p _ _ h3 h4 _; omega
  | succ q ih =>
    intro t p h1 h2 h3 h4 hmax
    simp only [tryEnd]
    rcases eq_or_ne p (q + 1) with rfl | hne
    · rw [if_pos ⟨h1, h2⟩]
    · have hlt : p < q + 1 := by omega
      rw [if_neg (hmax (q + 1) hlt (le_refl _))]
      exact ih t p h1 h2 h3 (by omega) (fun q' hq1 hq2 => hmax q' hq1 (by omega))

lemma tryEnd_none : ∀ (p0 : Nat) (t : List Char),
    (∀ q, 1 ≤ q → q ≤ p0 → ¬(t.get? q = some '/' ∧ t.get? (q + 1) = some '>')) →
    tryEnd t p0 = none := by
  intro p0
  induction p0 with
  | zero => intro t _; rfl
  | succ q ih =>
    intro t h
    simp only [tryEnd]
    rw [if_neg (h (q + 1) (by omega) (le_refl _))]
    exact ih t (fun q' hq1 hq2 => h q' hq1 (by omega))

lemma tryTok_none : ∀ (k : Nat) (t tok : List Char),
    (∀ o, 1 ≤ o → o ≤ k → tok.isPrefixOf (t.drop o) = false) →
    tryTok t tok k = none := by
  intro k
  induction k with
  | zero => intro t tok _; rfl
  | succ q ih =>
    intro t tok h
    simp only [tryTok]
    rw [if_neg (by simp [h (q + 1) (by omega) (le_refl _)])]
    exact ih t tok (fun o ho1 ho2 => h o ho1 (by omega))

lemma tryTok_runs : ∀ (k : Nat) (t tok res : List Char),
    (∀ o, 1 ≤ o → o ≤ k → tok.isPrefixOf (t.drop o) = true →
      ∀ p, tryEnd (t.drop (o + tok.length)) (ltFreeLen (t.drop (o + tok.length))) = some p →
        (t.drop (o + tok.length)).drop (p + 2) = res) →
    (∃ o, 1 ≤ o ∧ o ≤ k ∧ tok.isPrefixOf (t.drop o) = true ∧
      (tryEnd (t.drop (o + tok.length)) (ltFreeLen (t.drop (o + tok.length)))).isSome = true) →
    tryTok t tok k = some res := by
  intro k
  induction k with
  | zero =>
    intro t tok res _ hex
    obtain ⟨o, h1, h2, -, -⟩ := hex
    omega
  | succ q ih =>
    intro t tok res hall hex
    simp only [tryTok]
    by_cases hp : tok.isPrefixOf (t.drop (q + 1)) = true
    · rw [if_pos hp]
      cases he : tryEnd (t.drop (q + 1 + tok.length))
          (ltFreeLen (t.drop (q + 1 + tok.length))) with
      | some p =>
        simp only [he]
        rw [hall (q + 1) (by omega) (le_refl _) hp p he]
      | none =>
        simp only [he]
        apply ih t tok res (fun o ho1 ho2 => hall o ho1 (by omega))
        obtain ⟨o, ho1, ho2, ho3, ho4⟩ := hex
        rcases eq_or_ne o (q + 1) with rfl | hne
        · rw [he] at ho4; simp at ho4
        · exact ⟨o, ho1, by omega, ho3, ho4⟩
    · rw [if_neg hp]
      apply ih t tok res (fun o ho1 ho2 => hall o ho1 (by omega))
      obtain ⟨o, ho1, ho2, ho3, ho4⟩ := hex
      rcases eq_or_ne o (q + 1) with rfl | hne
      · exact absurd ho3 hp
      · exact ⟨o, ho1, by omega, ho3, ho4⟩

/-! The closing `/>` found by the greedy search is always the element's
own closing, never a later one. -/

lemma ltFreeLen_le_app : ∀ (x y : List Char), ltFreeLen (x ++ y) ≤ x.length + ltFreeLen y := by
  intro x
  induction x with
  | nil => intro y; simp
  | cons c cs ih =>
    intro y
    rw [List.cons_append]
    simp only [ltFreeLen, List.length_cons]
    split
    · omega
    · have := ih y
      omega

lemma window_no_close (w rest : List Char) (hrest : GapOk rest) :
    ∀ q, w.length < q → q ≤ ltFreeLen (w ++ '/' :: '>' :: rest) →
      ¬((w ++ '/' :: '>' :: rest).get? q = some '/' ∧
        (w ++ '/' :: '>' :: rest).get? (q + 1) = some '>') := by
  intro q hq1 hq2 hc
  obtain ⟨hc1, hc2⟩ := hc
  rw [List.get?_append_right (by omega)] at hc1
  rw [List.get?_append_right (by omega)] at hc2
  rcases eq_or_ne q (w.length + 1) with rfl | hne
  · rw [show w.length + 1 - w.length = 1 from by omega] at hc1
    simp at hc1
  · have hq3 : w.length + 2 ≤ q := by omega
    rw [show q - w.length = (q - w.length - 2) + 1 + 1 from by omega] at hc1
    rw [show q + 1 - w.length = (q + 1 - w.length - 2) + 1 + 1 from by omega] at hc2
    simp only [List.get?_cons_succ] at hc1 hc2
    rcases hrest with rfl | ⟨g, r2, rfl, hg⟩
    · simp at hc1
    · have hwin : ltFreeLen (w ++ '/' :: '>' :: (g ++ '<' :: r2)) ≤
          w.length + 2 + g.length := by
        have hle := ltFreeLen_le_app w ('/' :: '>' :: (g ++ '<' :: r2))
        have h3 : ltFreeLen ('<' :: r2) = 0 := by simp [ltFreeLen]
        have h2 : ltFreeLen ('/' :: '>' :: (g ++ '<' :: r2)) = 2 + g.length := by
          simp only [ltFreeLen]
          rw [if_neg (by decide), if_neg (by decide)]
          rw [ltFreeLen_app g _ (fun c hcg => (hg c hcg).2), h3]
          omega
        omega
      have hi : q - w.length - 2 ≤ g.length := by omega
      have hj : q + 1 - w.length - 2 = (q - w.length - 2) + 1 := by omega
      rw [hj] at hc2
      rcases Nat.lt_or_ge (q - w.length - 2) g.length with hilt | hige
      · rcases Nat.lt_or_ge (q - w.length - 2 + 1) g.length with hjlt | hjge
        · rw [List.get?_append hjlt] at hc2
          exact (hg '>' (List.get?_mem hc2)).1 rfl
        · rw [List.get?_append_right (by omega)] at hc2
          rw [show q - w.length - 2 + 1 - g.length = 0 from by omega] at hc2
          simp at hc2
      · have hieq : q - w.length - 2 = g.length := by omega
        rw [hieq, List.get?_append_right (le_refl _), Nat.sub_self] at hc1
        simp at hc1

lemma gtFree_elem (attrs rest : List Char) (hattrs : ∀ c ∈ attrs, ¬c = '>') :
    gtFreeLen (attrs ++ '/' :: '>' :: rest) = attrs.length + 1 := by
  rw [gtFreeLen_app attrs _ hattrs]
  have h1 : gtFreeLen ('/' :: '>' :: rest) = 1 := by
    simp only [gtFreeLen]
    rw [if_neg (by decide)]
    simp
  omega

lemma drop_gt_elem (attrs rest : List Char) :
    (attrs ++ '/' :: '>' :: rest).drop (attrs.length + 1) = '>' :: rest := by
  rw [show attrs ++ '/' :: '>' :: rest = (attrs ++ ['/']) ++ '>' :: rest from by simp]
  exact List.drop_left' (by simp)

/-- No occurrence of the token before the element's closing `>` means the
element pattern does not match at the element's opening `<`. -/
lemma elemMatch_no_tok (kind ktail tok attrs rest : List Char)
    (hk : kind = '<' :: ktail)
    (htok1 : ∀ c ∈ tok, ¬c = '/') (htok2 : tok ≠ [])
    (hhead : ∀ t0 ts, tok = t0 :: ts → ¬t0 = '>')
    (hattrs : ∀ c ∈ attrs, ¬c = '>')
    (hno : isSub tok attrs = false) :
    elemMatch kind tok (kind ++ (attrs ++ '/' :: '>' :: rest)) = none := by
  unfold elemMatch
  rw [if_pos (isPrefixOf_self_app kind _), List.drop_left]
  apply tryTok_none
  intro o ho1 ho2
  rw [gtFree_elem attrs rest hattrs] at ho2
  rcases Nat.lt_or_ge o (attrs.length + 1) with hlt | hge
  · cases hp : tok.isPrefixOf ((attrs ++ '/' :: '>' :: rest).drop o) with
    | false => rfl
    | true =>
      exfalso
      rw [drop_app_le attrs _ o (by omega)] at hp
      obtain ⟨hq, -⟩ := slash_free_prefix tok (attrs.drop o) _ htok1 hp
      have h1 := isSub_of_prefix_drop attrs o tok hq
      rw [hno] at h1
      simp at h1
  · have ho : o = attrs.length + 1 := by omega
    rw [ho, drop_gt_elem]
    cases tok with
    | nil => exact absurd rfl htok2
    | cons t0 ts =>
      simp [List.isPrefixOf, hhead t0 ts rfl]

/-- An occurrence of the token strictly inside the attributes makes the
element pattern match exactly the element: the remaining input after the
match is exactly the text after the element's own closing `/>`. -/
lemma elemMatch_tok (kind ktail tok a b rest : List Char)
    (hk : kind = '<' :: ktail)
    (htok : ∀ c ∈ tok, ¬c = '/' ∧ ¬c = '>' ∧ ¬c = '<')
    (htok2 : tok ≠ [])
    (ha : a ≠ []) (hb : b ≠ [])
    (hab : ∀ c ∈ a ++ (tok ++ b), ¬c = '>' ∧ ¬c = '<')
    (hrest : GapOk rest) :
    elemMatch kind tok (kind ++ ((a ++ (tok ++ b)) ++ '/' :: '>' :: rest)) = some rest := by
  unfold elemMatch
  rw [if_pos (isPrefixOf_self_app kind _), List.drop_left]
  have hattrs : ∀ c ∈ a ++ (tok ++ b), ¬c = '>' := fun c hc => (hab c hc).1
  apply tryTok_runs
  · -- every successful offset yields the text after the element
    intro o ho1 ho2 hp p he
    rw [gtFree_elem _ rest hattrs] at ho2
    have holt : o ≤ (a ++ (tok ++ b)).length := by
      rcases Nat.lt_or_ge o ((a ++ (tok ++ b)).length + 1) with hlt | hge
      · omega
      · exfalso
        have ho : o = (a ++ (tok ++ b)).length + 1 := by omega
        rw [ho, drop_gt_elem] at hp
        cases tok with
        | nil => exact absurd rfl htok2
        | cons t0 ts =>
          simp [List.isPrefixOf, (htok t0 (List.mem_cons_self t0 ts)).2.1] at hp
    rw [drop_app_le _ _ o holt] at hp
    obtain ⟨-, hql⟩ := slash_free_prefix tok _ _ (fun c hc => (htok c hc).1) hp
    have hlen : o + tok.length ≤ (a ++ (tok ++ b)).length := by
      have := List.length_drop o (a ++ (tok ++ b))
      omega
    have hafter : ((a ++ (tok ++ b)) ++ '/' :: '>' :: rest).drop (o + tok.length) =
        (a ++ (tok ++ b)).drop (o + tok.length) ++ '/' :: '>' :: rest :=
      drop_app_le _ _ _ hlen
    rw [hafter] at he ⊢
    have hbfree : ∀ c ∈ (a ++ (tok ++ b)).drop (o + tok.length), ¬c = '>' ∧ ¬c = '<' :=
      fun c hc => hab c (List.drop_subset _ _ hc)
    obtain ⟨he1, he2, he3, he4⟩ := tryEnd_some _ _ _ he
    have hpeq : p = ((a ++ (tok ++ b)).drop (o + tok.length)).length := by
      set w := (a ++ (tok ++ b)).drop (o + tok.length) with hw
      rcases Nat.lt_or_ge p w.length with hplt | hpge
      · exfalso
        rcases Nat.lt_or_ge (p + 1) w.length with hjlt | hjge
        · rw [List.get?_append hjlt] at he2
          exact (hbfree '>' (List.get?_mem he2)).1 rfl
        · have : p + 1 = w.length := by omega
          rw [List.get?_append_right (by omega), this, Nat.sub_self] at he2
          simp at he2
      · rcases Nat.lt_or_ge w.length p with hgt | hle
        · exact absurd ⟨he1, he2⟩ (window_no_close w rest hrest p hgt he4)
        · omega
    rw [hpeq]
    rw [show (a ++ (tok ++ b)).drop (o + tok.length) ++ '/' :: '>' :: rest =
        ((a ++ (tok ++ b)).drop (o + tok.length) ++ ['/', '>']) ++ rest from by simp]
    exact List.drop_left' (by simp)
  · -- the given occurrence, with nonempty text after it, succeeds
    refine ⟨a.length, ?_, ?_, ?_, ?_⟩
    · rcases a with _ | ⟨x, xs⟩
      · exact absurd rfl ha
      · simp
    · rw [gtFree_elem _ rest hattrs]
      simp [List.length_append]
      omega
    · rw [drop_app_le _ _ a.length (by simp)]
      rw [List.drop_left]
      rw [show tok ++ b ++ '/' :: '>' :: rest = tok ++ (b ++ '/' :: '>' :: rest) from by simp]
      exact isPrefixOf_self_app tok _
    · have hsplit : ((a ++ (tok ++ b)) ++ '/' :: '>' :: rest).drop (a.length + tok.length) =
          b ++ '/' :: '>' :: rest := by
        rw [show (a ++ (tok ++ b)) ++ '/' :: '>' :: rest =
            (a ++ tok) ++ (b ++ '/' :: '>' :: rest) from by simp]
        exact List.drop_left' (by simp)
      rw [hsplit]
      have hbfree2 : ∀ c ∈ b, ¬c = '>' ∧ ¬c = '<' :=
        fun c hc => hab c (List.mem_append_right a (List.mem_append_right tok hc))
      have hltf : ltFreeLen (b ++ '/' :: '>' :: rest) =
          b.length + ltFreeLen ('/' :: '>' :: rest) :=
        ltFreeLen_app b _ (fun c hc => (hbfree2 c hc).2)
      rw [tryEnd_unique (ltFreeLen (b ++ '/' :: '>' :: rest)) (b ++ '/' :: '>' :: rest)
        b.length ?g1 ?g2 ?g3 ?g4 ?g5]
      · rfl
      case g1 =>
        rw [List.get?_append_right (le_refl _), Nat.sub_self]
        rfl
      case g2 =>
        rw [List.get?_append_right (by omega),
          show b.length + 1 - b.length = 1 from by omega]
        rfl
      case g3 =>
        rcases b with _ | ⟨x, xs⟩
        · exact absurd rfl hb
        · simp
      case g4 =>
        rw [hltf]
        simp only [ltFreeLen]
        rw [if_neg (by decide), if_neg (by decide)]
        omega
      case g5 => exact fun q hq1 hq2 => window_no_close b rest hrest q hq1 hq2

/-! Stepping over text that holds no `<`, and whole-pass identity when the
element kind never occurs. -/

lemma elemMatch_not_lt {kind ktail : List Char} (hk : kind = '<' :: ktail)
    (tok : List Char) {c : Char} (t : List Char) (hc : ¬c = '<') :
    elemMatch kind tok (c :: t) = none := by
  unfold elemMatch
  rw [hk]
  have hne : ('<' : Char) ≠ c := fun h => hc h.symm
  rw [if_neg (by simp [List.isPrefixOf, hne])]

lemma elemSub_no_lt {kind ktail : List Char} (hk : kind = '<' :: ktail) (tok : List Char) :
    ∀ (u v : List Char), (∀ c ∈ u, ¬c = '<') →
      elemSub kind tok (u ++ v) = u ++ elemSub kind tok v := by
  intro u
  induction u with
  | nil => intro v _; rfl
  | cons c cs ih =>
    intro v hu
    rw [List.cons_append]
    rw [elemSub_cons_none (elemMatch_not_lt hk tok _ (hu c (List.mem_cons_self c cs)))]
    rw [ih v (fun d hd => hu d (List.mem_cons_of_mem _ hd))]
    rfl

lemma elemSub_free_id {kind ktail : List Char} (hk : kind = '<' :: ktail) (tok : List Char)
    (u : List Char) (hu : ∀ c ∈ u, ¬c = '<') : elemSub kind tok u = u := by
  simpa [elemSub_nil] using elemSub_no_lt hk tok u [] hu

lemma isPrefixOf_app_mono : ∀ (p x y : List Char), p.isPrefixOf x = true →
    p.isPrefixOf (x ++ y) = true := by
  intro p
  induction p with
  | nil => intro x y _; simp
  | cons c cs ih =>
    intro x y h
    cases x with
    | nil => simp [List.isPrefixOf] at h
    | cons a as =>
      simp only [List.isPrefixOf, Bool.and_eq_true] at h
      rw [List.cons_append]
      simp only [List.isPrefixOf, Bool.and_eq_true]
      exact ⟨h.1, ih as y h.2⟩

lemma isSub_nil_pat : ∀ (y : List Char), isSub [] y = true := by
  intro y
  cases y with
  | nil => rfl
  | cons c cs => simp [isSub]

lemma isSub_app_left : ∀ (x p y : List Char), isSub p x = true →
    isSub p (x ++ y) = true := by
  intro x
  induction x with
  | nil =>
    intro p y h
    cases p with
    | nil => exact isSub_nil_pat y
    | cons q qs => simp [isSub, List.isEmpty] at h
  | cons c cs ih =>
    intro p y h
    simp only [isSub, Bool.or_eq_true] at h
    rw [List.cons_append]
    simp only [isSub, Bool.or_eq_true]
    rcases h with h | h
    · exact Or.inl (isPrefixOf_app_mono p (c :: cs) y h)
    · exact Or.inr (ih p y h)

lemma isSub_app_right : ∀ (x p y : List Char), isSub p y = true →
    isSub p (x ++ y) = true := by
  intro x
  induction x with
  | nil => intro p y h; simpa using h
  | cons c cs ih =>
    intro p y h
    rw [List.cons_append]
    simp only [isSub, Bool.or_eq_true]
    exact Or.inr (ih p y h)

lemma elemSub_id_no_kind : ∀ (t kind tok : List Char), isSub kind t = false →
    elemSub kind tok t = t := by
  intro t
  induction t with
  | nil => intro kind tok _; rfl
  | cons c cs ih =>
    intro kind tok h
    simp only [isSub, Bool.or_eq_false_iff] at h
    have hm : elemMatch kind tok (c :: cs) = none := by
      unfold elemMatch
      rw [if_neg (by simp [h.1])]
    rw [elemSub_cons_none hm, ih kind tok h.2]

/-- The scenario of two adjacent same-kind self-closing elements in which
only one holds the token: the substitution for that kind removes exactly
the token-bearing element, whichever of the two it is, and reproduces the
sibling and the gap byte for byte. -/
lemma elemSub_two_elems (ktail tok attrs1 a b gap : List Char)
    (hkt : ∀ c ∈ ktail, ¬c = '<')
    (htok : ∀ c ∈ tok, ¬c = '/' ∧ ¬c = '>' ∧ ¬c = '<')
    (htok2 : tok ≠ [])
    (h1 : ∀ c ∈ attrs1, ¬c = '>' ∧ ¬c = '<')
    (h2a : ∀ c ∈ a, ¬c = '>' ∧ ¬c = '<')
    (h2b : ∀ c ∈ b, ¬c = '>' ∧ ¬c = '<')
    (hg : ∀ c ∈ gap, ¬c = '>' ∧ ¬c = '<')
    (ha : a ≠ []) (hb : b ≠ [])
    (hno : isSub tok attrs1 = false) :
    elemSub ('<' :: ktail) tok
        (elemE ('<' :: ktail) attrs1 ++ (gap ++ elemE ('<' :: ktail) (a ++ (tok ++ b)))) =
      elemE ('<' :: ktail) attrs1 ++ gap ∧
    elemSub ('<' :: ktail) tok
        (elemE ('<' :: ktail) (a ++ (tok ++ b)) ++ (gap ++ elemE ('<' :: ktail) attrs1)) =
      gap ++ elemE ('<' :: ktail) attrs1 := by
  have hdata : ("/>".data : List Char) = ['/', '>'] := by decide
  have htok1 : ∀ c ∈ tok, ¬c = '/' := fun c hc => (htok c hc).1
  have hhead : ∀ t0 ts, tok = t0 :: ts → ¬t0 = '>' := by
    intro t0 ts he
    exact (htok t0 (by rw [he]; exact List.mem_cons_self t0 ts)).2.1
  have hab : ∀ c ∈ a ++ (tok ++ b), ¬c = '>' ∧ ¬c = '<' := by
    intro c hc
    simp only [List.mem_append] at hc
    rcases hc with hc | hc | hc
    · exact h2a c hc
    · exact ⟨(htok c hc).2.1, (htok c hc).2.2⟩
    · exact h2b c hc
  constructor
  · -- token in the second element
    have hm1 : elemMatch ('<' :: ktail) tok
        (('<' :: ktail) ++ (attrs1 ++ '/' :: '>' ::
          (gap ++ elemE ('<' :: ktail) (a ++ (tok ++ b))))) = none :=
      elemMatch_no_tok ('<' :: ktail) ktail tok attrs1 _ rfl htok1 htok2 hhead
        (fun c hc => (h1 c hc).1) hno
    have hm2 : elemMatch ('<' :: ktail) tok
        (('<' :: ktail) ++ ((a ++ (tok ++ b)) ++ '/' :: '>' :: ([] : List Char))) =
        some [] :=
      elemMatch_tok ('<' :: ktail) ktail tok a b [] rfl htok htok2 ha hb hab (Or.inl rfl)
    have hform1 : elemE ('<' :: ktail) attrs1 ++
        (gap ++ elemE ('<' :: ktail) (a ++ (tok ++ b))) =
        '<' :: (ktail ++ (attrs1 ++ '/' :: '>' ::
          (gap ++ elemE ('<' :: ktail) (a ++ (tok ++ b))))) := by
      simp [elemE, hdata]
    have hm1' : elemMatch ('<' :: ktail) tok
        ('<' :: (ktail ++ (attrs1 ++ '/' :: '>' ::
          (gap ++ elemE ('<' :: ktail) (a ++ (tok ++ b)))))) = none := hm1
    rw [hform1]
    rw [elemSub_cons_none hm1']
    have hufree : ∀ c ∈ ktail ++ (attrs1 ++ '/' :: '>' :: gap), ¬c = '<' := by
      intro c hc
      simp only [List.mem_append, List.mem_cons] at hc
      rcases hc with hc | hc | rfl | rfl | hc
      · exact hkt c hc
      · exact (h1 c hc).2
      · decide
      · decide
      · exact (hg c hc).2
    have hform2 : ktail ++ (attrs1 ++ '/' :: '>' ::
        (gap ++ elemE ('<' :: ktail) (a ++ (tok ++ b)))) =
        (ktail ++ (attrs1 ++ '/' :: '>' :: gap)) ++
          elemE ('<' :: ktail) (a ++ (tok ++ b)) := by
      simp
    rw [hform2, elemSub_no_lt rfl tok _ _ hufree]
    have hform3 : elemE ('<' :: ktail) (a ++ (tok ++ b)) =
        '<' :: (ktail ++ ((a ++ (tok ++ b)) ++ '/' :: '>' :: ([] : List Char))) := by
      simp [elemE, hdata]
    have hm2' : elemMatch ('<' :: ktail) tok
        ('<' :: (ktail ++ ((a ++ (tok ++ b)) ++ '/' :: '>' :: ([] : List Char)))) =
        some [] := hm2
    rw [hform3]
    rw [elemSub_cons_some hm2', elemSub_nil]
    simp [elemE, hdata]
  · -- token in the first element
    have hrest : GapOk (gap ++ elemE ('<' :: ktail) attrs1) := by
      right
      refine ⟨gap, ktail ++ (attrs1 ++ ['/', '>']), ?_, hg⟩
      simp [elemE, hdata]
    have hm3 : elemMatch ('<' :: ktail) tok
        (('<' :: ktail) ++ ((a ++ (tok ++ b)) ++ '/' :: '>' ::
          (gap ++ elemE ('<' :: ktail) attrs1))) =
        some (gap ++ elemE ('<' :: ktail) attrs1) :=
      elemMatch_tok ('<' :: ktail) ktail tok a b _ rfl htok htok2 ha hb hab hrest
    have hform4 : elemE ('<' :: ktail) (a ++ (tok ++ b)) ++
        (gap ++ elemE ('<' :: ktail) attrs1) =
        '<' :: (ktail ++ ((a ++ (tok ++ b)) ++ '/' :: '>' ::
          (gap ++ elemE ('<' :: ktail) attrs1))) := by
      simp [elemE, hdata]
    have hm3' : elemMatch ('<' :: ktail) tok
        ('<' :: (ktail ++ ((a ++ (tok ++ b)) ++ '/' :: '>' ::
          (gap ++ elemE ('<' :: ktail) attrs1)))) =
        some (gap ++ elemE ('<' :: ktail) attrs1) := hm3
    rw [hform4, elemSub_cons_some hm3']
    rw [elemSub_no_lt rfl tok gap _ (fun c hc => (hg c hc).2)]
    have hm4 : elemMatch ('<' :: ktail) tok
        (('<' :: ktail) ++ (attrs1 ++ '/' :: '>' :: ([] : List Char))) = none :=
      elemMatch_no_tok ('<' :: ktail) ktail tok attrs1 [] rfl htok1 htok2 hhead
        (fun c hc => (h1 c hc).1) hno
    have hform5 : elemE ('<' :: ktail) attrs1 =
        '<' :: (ktail ++ (attrs1 ++ '/' :: '>' :: ([] : List Char))) := by
      simp [elemE, hdata]
    have hm4' : elemMatch ('<' :: ktail) tok
        ('<' :: (ktail ++ (attrs1 ++ '/' :: '>' :: ([] : List Char)))) = none := hm4
    rw [hform5, elemSub_cons_none hm4']
    have hifree : ∀ c ∈ ktail ++ (attrs1 ++ '/' :: '>' :: ([] : List Char)), ¬c = '<' := by
      intro c hc
      simp only [List.mem_append, List.mem_cons] at hc
      rcases hc with hc | hc | rfl | rfl | hc
      · exact hkt c hc
      · exact (h1 c hc).2
      · decide
      · decide
      · simp at hc
    rw [elemSub_free_id rfl tok _ hifree]

/-- C7.  Given a manifest with two adjacent elements of a matching kind
(activity or provider) where only one holds the sensitive
`com.pairip.licensecheck` class-name token, the Manifest Entry Pruner
removes exactly that one element — whichever of the two it is — and leaves
the other and the gap between them byte-identical: the match never runs
past the element's own `/>` closing into the sibling element. -/
theorem manifest_prune_non_overreach
    (kind tok okind attrs1 a b gap : List Char)
    (hko : (kind = kindAct ∧ tok = tokAct ∧ okind = kindProv) ∨
           (kind = kindProv ∧ tok = tokProv ∧ okind = kindAct))
    (h1 : ∀ c ∈ attrs1, ¬c = '>' ∧ ¬c = '<')
    (h2a : ∀ c ∈ a, ¬c = '>' ∧ ¬c = '<')
    (h2b : ∀ c ∈ b, ¬c = '>' ∧ ¬c = '<')
    (hg : ∀ c ∈ gap, ¬c = '>' ∧ ¬c = '<')
    (ha : a ≠ []) (hb : b ≠ [])
    (hno : isSub tok attrs1 = false)
    (ho1 : isSub okind
      (elemE kind attrs1 ++ (gap ++ elemE kind (a ++ (tok ++ b)))) = false)
    (ho2 : isSub okind
      (elemE kind (a ++ (tok ++ b)) ++ (gap ++ elemE kind attrs1)) = false) :
    pruneEntries (elemE kind attrs1 ++ (gap ++ elemE kind (a ++ (tok ++ b)))) =
      elemE kind attrs1 ++ gap ∧
    pruneEntries (elemE kind (a ++ (tok ++ b)) ++ (gap ++ elemE kind attrs1)) =
      gap ++ elemE kind attrs1 := by
  have ho1' : isSub okind (elemE kind attrs1 ++ gap) = false := by
    cases hx : isSub okind (elemE kind attrs1 ++ gap) with
    | false => rfl
    | true =>
      exfalso
      have hmono := isSub_app_left (elemE kind attrs1 ++ gap) okind
        (elemE kind (a ++ (tok ++ b))) hx
      rw [List.append_assoc, ho1] at hmono
      simp at hmono
  have ho2' : isSub okind (gap ++ elemE kind attrs1) = false := by
    cases hx : isSub okind (gap ++ elemE kind attrs1) with
    | false => rfl
    | true =>
      exfalso
      have hmono := isSub_app_right (elemE kind (a ++ (tok ++ b))) okind _ hx
      rw [ho2] at hmono
      simp at hmono
  rcases hko with ⟨rfl, rfl, rfl⟩ | ⟨rfl, rfl, rfl⟩
  · have hmain := elemSub_two_elems ("activity".data) tokAct attrs1 a b gap
      (by decide) (by decide) (by decide) h1 h2a h2b hg ha hb hno
    have hk : kindAct = '<' :: "activity".data := by decide
    constructor
    · unfold pruneEntries
      rw [hk] at ho1' ⊢
      rw [hmain.1]
      exact elemSub_id_no_kind _ kindProv tokProv ho1'
    · unfold pruneEntries
      rw [hk] at ho2' ⊢
      rw [hmain.2]
      exact elemSub_id_no_kind _ kindProv tokProv ho2'
  · have hmain := elemSub_two_elems ("provider".data) tokProv attrs1 a b gap
      (by decide) (by decide) (by decide) h1 h2a h2b hg ha hb hno
    have hk : kindProv = '<' :: "provider".data := by decide
    constructor
    · unfold pruneEntries
      rw [elemSub_id_no_kind _ kindAct tokAct ho1]
      rw [hk] at ho1' ⊢
      exact hmain.1
    · unfold pruneEntries
      rw [elemSub_id_no_kind _ kindAct tokAct ho2]
      rw [hk] at ho2' ⊢
      exact hmain.2

theorem manifest_prune_non_overreach_witness :
    pruneEntries (elemE kindAct (" x=\"1\" ".data) ++
        ("\n  ".data ++ elemE kindAct
          (" android:name=\"".data ++ (tokAct ++ "\" ".data)))) =
      elemE kindAct (" x=\"1\" ".data) ++ "\n  ".data ∧
    pruneEntries (elemE kindAct
        (" android:name=\"".data ++ (tokAct ++ "\" ".data)) ++
        ("\n  ".data ++ elemE kindAct (" x=\"1\" ".data))) =
      "\n  ".data ++ elemE kindAct (" x=\"1\" ".data) :=
  manifest_prune_non_overreach kindAct tokAct kindProv
    (" x=\"1\" ".data) (" android:name=\"".data) ("\" ".data) ("\n  ".data)
    (Or.inl ⟨rfl, rfl, rfl⟩)
    (by decide) (by decide) (by decide) (by decide) (by decide) (by decide)
    (by decide) (by decide) (by decide)

end Pairip
